import Mathlib

/-!
Verification development for the gos search tool (a grep-like utility).

The repository's core is a discovery-and-match pipeline:
  - splitStringAtAllMatches: decomposes a string into (left, middle, right)
    triples, one per regex match, via Regexp.FindAllStringIndex;
  - getFileInfoWithPaths / discoverFilesShallow / discoverFilesRecursive:
    filesystem entry discovery (shallow and breadth-first recursive);
  - find / searchFilename / searchFileContents: the orchestrating loop with
    the counters matchCount, searchCount, discoverCount, skipCount.

Strings are modelled as lists of characters (Go indexes bytes; for the
properties below the unit of indexing is irrelevant, and the model uses one
uniform unit).  The regular-expression engine is external to the repository
(Go's regexp package); it is modelled by the one operation the code consumes:
given a start position, report the leftmost match at or after it.  Concrete
runs instantiate it with a literal-substring matcher defined below.
-/

abbrev Str := List Char

/-- StringTriple from search.go: what is before the match, the match itself,
and the rest of the string. -/
structure StringTriple where
  left   : Str
  middle : Str
  right  : Str
deriving DecidableEq, Repr

/-- The interface of a compiled regex on one fixed subject string: from a
start position, the span [st, en) of the leftmost match starting at or after
that position, if any.  This is what Go's doExecute provides to the
FindAllStringIndex loop. -/
abbrev MatcherFn := Nat → Option (Nat × Nat)

/-- A compiled regex usable on any subject string (Go's Regexp value). -/
abbrev Regex := Str → MatcherFn

/-- Well-formedness of the engine on a subject of length len: a reported
match starts at or after the queried position and its span lies inside the
subject. -/
def MatcherBounded (m : MatcherFn) (len : Nat) : Prop :=
  ∀ pos st en, m pos = some (st, en) → pos ≤ st ∧ st ≤ en ∧ en ≤ len

/-- Leftmost coherence of the engine: if the leftmost match from pos starts
at st, then searching from any position between pos and st finds that same
match (there is no match starting strictly before st). -/
def MatcherLeftmost (m : MatcherFn) : Prop :=
  ∀ pos p st en, m pos = some (st, en) → pos ≤ p → p ≤ st → m p = some (st, en)

/-- The loop body of Go's Regexp.allMatches (regexp package), which backs
FindAllStringIndex(s, -1): scan from pos; an empty match equal to the end of
the previous match is rejected; an empty match advances pos by one, a
non-empty match advances pos to its end.  Go bounds the loop by the counter
i < n with n = len+1 and the condition pos <= len; pos strictly increases
each iteration, so fuel len+2 is never exhausted for a bounded matcher. -/
def allMatchesAux (m : MatcherFn) (len : Nat) : Nat → Nat → Option Nat → List (Nat × Nat)
  | 0, _, _ => []
  | fuel+1, pos, prevEnd =>
    if pos ≤ len then
      match m pos with
      | none => []
      | some (st, en) =>
        if st = en then
          if prevEnd = some st then
            allMatchesAux m len fuel (pos+1) (some en)
          else
            (st, en) :: allMatchesAux m len fuel (pos+1) (some en)
        else
          (st, en) :: allMatchesAux m len fuel en (some en)
    else []

/-- Regexp.FindAllStringIndex(s, -1) on a subject of length len. -/
def findAllStringIndex (m : MatcherFn) (len : Nat) : List (Nat × Nat) :=
  allMatchesAux m len (len + 2) 0 none

/-- splitStringAtAllMatches from search.go: one triple per match, storing
s[:st], s[st:en] and s[en:].  Go returns nil when there is no match; a nil
slice and an empty slice are indistinguishable to every caller (all of them
only range over the result), so the model returns the plain list. -/
def splitStringAtAllMatches (s : Str) (m : MatcherFn) : List StringTriple :=
  (findAllStringIndex m s.length).map (fun sp =>
    { left   := s.take sp.1
      middle := (s.drop sp.1).take (sp.2 - sp.1)
      right  := s.drop sp.2 })

/-! ### A concrete engine: literal-substring patterns

Used to instantiate the abstract engine on concrete runs (the patterns in the
repository's tests are all literals).  hitAt pat s i holds when pat occurs in
s at position i. -/

def hitAt (pat s : Str) (i : Nat) : Bool := pat.isPrefixOf (s.drop i)

/-- Scan positions i, i+1, ... for the first occurrence of pat. -/
def litFirstFromAux (pat s : Str) : Nat → Nat → Option (Nat × Nat)
  | 0, _ => none
  | fuel+1, i =>
    if i ≤ s.length then
      if hitAt pat s i then some (i, i + pat.length)
      else litFirstFromAux pat s fuel (i+1)
    else none

/-- The leftmost occurrence of the literal pat in s at or after pos. -/
def litFirstFrom (pat s : Str) (pos : Nat) : Option (Nat × Nat) :=
  litFirstFromAux pat s (s.length + 1 - pos) pos

/-- The literal pattern pat as a compiled regex. -/
def litRegex (pat : Str) : Regex := fun s pos => litFirstFrom pat s pos

/-! ### Step equations for the FindAllStringIndex loop -/

theorem allMatchesAux_stop (m : MatcherFn) (len fuel pos : Nat) (prevEnd : Option Nat)
    (hpos : ¬ pos ≤ len) :
    allMatchesAux m len (fuel+1) pos prevEnd = [] := by
  simp [allMatchesAux, hpos]

theorem allMatchesAux_none (m : MatcherFn) (len fuel pos : Nat) (prevEnd : Option Nat)
    (hpos : pos ≤ len) (hm : m pos = none) :
    allMatchesAux m len (fuel+1) pos prevEnd = [] := by
  simp [allMatchesAux, hpos, hm]

theorem allMatchesAux_empty_rej (m : MatcherFn) (len fuel pos st : Nat) (prevEnd : Option Nat)
    (hpos : pos ≤ len) (hm : m pos = some (st, st)) (hpe : prevEnd = some st) :
    allMatchesAux m len (fuel+1) pos prevEnd = allMatchesAux m len fuel (pos+1) (some st) := by
  simp [allMatchesAux, hpos, hm, hpe]

theorem allMatchesAux_empty_acc (m : MatcherFn) (len fuel pos st : Nat) (prevEnd : Option Nat)
    (hpos : pos ≤ len) (hm : m pos = some (st, st)) (hpe : ¬ prevEnd = some st) :
    allMatchesAux m len (fuel+1) pos prevEnd =
      (st, st) :: allMatchesAux m len fuel (pos+1) (some st) := by
  simp [allMatchesAux, hpos, hm, hpe]

theorem allMatchesAux_pos (m : MatcherFn) (len fuel pos st en : Nat) (prevEnd : Option Nat)
    (hpos : pos ≤ len) (hm : m pos = some (st, en)) (hne : ¬ st = en) :
    allMatchesAux m len (fuel+1) pos prevEnd =
      (st, en) :: allMatchesAux m len fuel en (some en) := by
  simp [allMatchesAux, hpos, hm, hne]

/-! ### Invariants of the scan loop -/

/-- Every span produced by the loop starts at or after the scan position and
lies inside the subject. -/
theorem allMatchesAux_mem_bounds (m : MatcherFn) (len : Nat) (hb : MatcherBounded m len) :
    ∀ fuel pos prevEnd, ∀ sp ∈ allMatchesAux m len fuel pos prevEnd,
      pos ≤ sp.1 ∧ sp.1 ≤ sp.2 ∧ sp.2 ≤ len := by
  intro fuel
  induction fuel with
  | zero => intro pos prevEnd sp hsp; simp [allMatchesAux] at hsp
  | succ fuel ih =>
    intro pos prevEnd sp hsp
    by_cases hpos : pos ≤ len
    · cases hm : m pos with
      | none => rw [allMatchesAux_none m len fuel pos prevEnd hpos hm] at hsp; simp at hsp
      | some stEn =>
        obtain ⟨st, en⟩ := stEn
        obtain ⟨h1, h2, h3⟩ := hb pos st en hm
        by_cases hse : st = en
        · subst hse
          by_cases hpe : prevEnd = some st
          · rw [allMatchesAux_empty_rej m len fuel pos st prevEnd hpos hm hpe] at hsp
            have h := ih (pos+1) (some st) sp hsp
            exact ⟨Nat.le_trans (Nat.le_succ pos) h.1, h.2⟩
          · rw [allMatchesAux_empty_acc m len fuel pos st prevEnd hpos hm hpe] at hsp
            rcases List.mem_cons.mp hsp with h | h
            · subst h; exact ⟨h1, h2, h3⟩
            · have h' := ih (pos+1) (some st) sp h
              exact ⟨Nat.le_trans (Nat.le_succ pos) h'.1, h'.2⟩
        · rw [allMatchesAux_pos m len fuel pos st en prevEnd hpos hm hse] at hsp
          rcases List.mem_cons.mp hsp with h | h
          · subst h; exact ⟨h1, h2, h3⟩
          · have h' := ih en (some en) sp h
            exact ⟨Nat.le_trans (Nat.le_trans h1 h2) h'.1, h'.2⟩
    · rw [allMatchesAux_stop m len fuel pos prevEnd hpos] at hsp; simp at hsp

/-- After an accepted empty match at st, the loop resumes at p ≤ st+1 with
prevEnd = st; while the leftmost match from the resume position is still the
same empty match it is rejected, so every later span starts after st. -/
theorem allMatchesAux_after_empty (m : MatcherFn) (len : Nat) (hb : MatcherBounded m len) :
    ∀ fuel p st, p ≤ st + 1 → (∀ q, p ≤ q → q ≤ st → m q = some (st, st)) →
      ∀ sp ∈ allMatchesAux m len fuel p (some st), st < sp.1 := by
  intro fuel
  induction fuel with
  | zero => intro p st _ _ sp hsp; simp [allMatchesAux] at hsp
  | succ fuel ih =>
    intro p st hp hsh sp hsp
    by_cases hpos : p ≤ len
    · by_cases hps : p ≤ st
      · have hm : m p = some (st, st) := hsh p (Nat.le_refl p) hps
        rw [allMatchesAux_empty_rej m len fuel p st (some st) hpos hm rfl] at hsp
        exact ih (p+1) st (by omega) (fun q hq1 hq2 => hsh q (by omega) hq2) sp hsp
      · cases hm : m p with
        | none => rw [allMatchesAux_none m len fuel p (some st) hpos hm] at hsp; simp at hsp
        | some stEn =>
          obtain ⟨st', en'⟩ := stEn
          obtain ⟨h1, h2, h3⟩ := hb p st' en' hm
          have hst' : st < st' := by omega
          by_cases hse : st' = en'
          · subst hse
            have hpe : ¬ (some st : Option Nat) = some st' := by
              intro hcon
              exact absurd (Option.some.inj hcon) (by omega)
            rw [allMatchesAux_empty_acc m len fuel p st' (some st) hpos hm hpe] at hsp
            rcases List.mem_cons.mp hsp with h | h
            · subst h; exact hst'
            · have := allMatchesAux_mem_bounds m len hb fuel (p+1) (some st') sp h
              omega
          · rw [allMatchesAux_pos m len fuel p st' en' (some st) hpos hm hse] at hsp
            rcases List.mem_cons.mp hsp with h | h
            · subst h; exact hst'
            · have := allMatchesAux_mem_bounds m len hb fuel en' (some en') sp h
              omega
    · rw [allMatchesAux_stop m len fuel p (some st) hpos] at hsp; simp at hsp

/-- The spans produced by the loop are pairwise non-overlapping and strictly
increasing in start offset. -/
theorem allMatchesAux_pairwise (m : MatcherFn) (len : Nat) (hb : MatcherBounded m len)
    (hl : MatcherLeftmost m) :
    ∀ fuel pos prevEnd, (allMatchesAux m len fuel pos prevEnd).Pairwise
      (fun a b => a.2 ≤ b.1 ∧ a.1 < b.1) := by
  intro fuel
  induction fuel with
  | zero => intro pos prevEnd; simp [allMatchesAux]
  | succ fuel ih =>
    intro pos prevEnd
    by_cases hpos : pos ≤ len
    · cases hm : m pos with
      | none => rw [allMatchesAux_none m len fuel pos prevEnd hpos hm]; exact List.Pairwise.nil
      | some stEn =>
        obtain ⟨st, en⟩ := stEn
        obtain ⟨h1, h2, h3⟩ := hb pos st en hm
        by_cases hse : st = en
        · subst hse
          by_cases hpe : prevEnd = some st
          · rw [allMatchesAux_empty_rej m len fuel pos st prevEnd hpos hm hpe]
            exact ih (pos+1) (some st)
          · rw [allMatchesAux_empty_acc m len fuel pos st prevEnd hpos hm hpe]
            refine List.Pairwise.cons ?_ (ih (pos+1) (some st))
            intro sp hsp
            have hgt : st < sp.1 := allMatchesAux_after_empty m len hb fuel (pos+1) st
              (by omega) (fun q hq1 hq2 => hl pos q st st hm (by omega) hq2) sp hsp
            exact ⟨Nat.le_of_lt hgt, hgt⟩
        · rw [allMatchesAux_pos m len fuel pos st en prevEnd hpos hm hse]
          refine List.Pairwise.cons ?_ (ih en (some en))
          intro sp hsp
          have hmem := allMatchesAux_mem_bounds m len hb fuel en (some en) sp hsp
          exact ⟨hmem.1, by omega⟩
    · rw [allMatchesAux_stop m len fuel pos prevEnd hpos]; exact List.Pairwise.nil

/-- Slicing s at st ≤ en ≤ length and concatenating the three pieces gives
back s. -/
theorem take_middle_drop (s : Str) (st en : Nat) (h1 : st ≤ en) (h2 : en ≤ s.length) :
    s.take st ++ (s.drop st).take (en - st) ++ s.drop en = s := by
  have hd : s.drop en = (s.drop st).drop (en - st) := by
    rw [List.drop_drop]
    congr 1
    omega
  rw [List.append_assoc, hd, List.take_append_drop, List.take_append_drop]

/-! ### Properties of the literal engine -/

/-- A hit at position i inside the subject ends inside the subject. -/
theorem hitAt_le (pat s : Str) (i : Nat) (hi : i ≤ s.length) (h : hitAt pat s i = true) :
    i + pat.length ≤ s.length := by
  have hp : pat <+: s.drop i := by
    simpa [hitAt, List.isPrefixOf_iff_prefix] using h
  have hlen := hp.length_le
  rw [List.length_drop] at hlen
  omega

/-- Characterization of a successful literal scan: the returned start is the
first hit at or after the scan start. -/
theorem litFirstFromAux_some (pat s : Str) :
    ∀ fuel i st en, litFirstFromAux pat s fuel i = some (st, en) →
      i ≤ st ∧ st ≤ s.length ∧ en = st + pat.length ∧ hitAt pat s st = true ∧
        ∀ j, i ≤ j → j < st → hitAt pat s j = false := by
  intro fuel
  induction fuel with
  | zero => intro i st en h; simp [litFirstFromAux] at h
  | succ fuel ih =>
    intro i st en h
    by_cases hi : i ≤ s.length
    · cases hh : hitAt pat s i with
      | true =>
        simp [litFirstFromAux, hi, hh] at h
        obtain ⟨hst, hen⟩ := h
        subst hst; subst hen
        exact ⟨Nat.le_refl i, hi, rfl, hh, fun j hj1 hj2 => absurd hj1 (by omega)⟩
      | false =>
        simp [litFirstFromAux, hi, hh] at h
        obtain ⟨k1, k2, k3, k4, k5⟩ := ih (i+1) st en h
        refine ⟨by omega, k2, k3, k4, fun j hj1 hj2 => ?_⟩
        by_cases hji : j = i
        · subst hji; exact hh
        · exact k5 j (by omega) hj2
    · simp [litFirstFromAux, hi] at h

/-- Converse: the first hit at or after the scan start is what the literal
scan returns, given enough fuel. -/
theorem litFirstFromAux_of (pat s : Str) :
    ∀ fuel i st, i ≤ st → st < i + fuel → st ≤ s.length → hitAt pat s st = true →
      (∀ j, i ≤ j → j < st → hitAt pat s j = false) →
      litFirstFromAux pat s fuel i = some (st, st + pat.length) := by
  intro fuel
  induction fuel with
  | zero => intro i st h1 h2 _ _ _; exact absurd h2 (by omega)
  | succ fuel ih =>
    intro i st h1 h2 h3 h4 h5
    by_cases heq : i = st
    · subst heq
      simp [litFirstFromAux, h3, h4]
    · have hhi : hitAt pat s i = false := h5 i (Nat.le_refl i) (by omega)
      have hi : i ≤ s.length := by omega
      simp [litFirstFromAux, hi, hhi]
      exact ih (i+1) st (by omega) (by omega) h3 h4 (fun j hj1 hj2 => h5 j (by omega) hj2)

/-- The literal engine is bounded on its subject. -/
theorem litFirstFrom_bounded (pat s : Str) : MatcherBounded (litRegex pat s) s.length := by
  intro pos st en h
  obtain ⟨h1, h2, h3, h4, _⟩ := litFirstFromAux_some pat s (s.length + 1 - pos) pos st en h
  have hlen := hitAt_le pat s st h2 h4
  omega

/-- The literal engine is leftmost-coherent. -/
theorem litFirstFrom_leftmost (pat s : Str) : MatcherLeftmost (litRegex pat s) := by
  intro pos p st en h hp1 hp2
  obtain ⟨h1, h2, h3, h4, h5⟩ := litFirstFromAux_some pat s (s.length + 1 - pos) pos st en h
  subst h3
  exact litFirstFromAux_of pat s (s.length + 1 - p) p st hp2 (by omega) h2 h4
    (fun j hj1 hj2 => h5 j (by omega) hj2)

/-- C1: for every input string and every compiled pattern (any engine that is
bounded and leftmost-coherent, as Go's regexp engine is), each triple returned
by splitStringAtAllMatches satisfies left ++ middle ++ right = s, and the
match spans underlying the returned sequence are non-overlapping and strictly
increasing in start offset. -/
theorem splitStringAtAllMatches_roundTrip (s : Str) (m : MatcherFn)
    (hb : MatcherBounded m s.length) (hl : MatcherLeftmost m) :
    (∀ t ∈ splitStringAtAllMatches s m, t.left ++ t.middle ++ t.right = s) ∧
    (findAllStringIndex m s.length).Pairwise (fun a b => a.2 ≤ b.1 ∧ a.1 < b.1) := by
  constructor
  · intro t ht
    simp only [splitStringAtAllMatches, List.mem_map] at ht
    obtain ⟨sp, hsp, rfl⟩ := ht
    have hbd := allMatchesAux_mem_bounds m s.length hb (s.length + 2) 0 none sp hsp
    exact take_middle_drop s sp.1 sp.2 hbd.2.1 hbd.2.2
  · exact allMatchesAux_pairwise m s.length hb hl (s.length + 2) 0 none

/-- Witness for C1: the literal pattern ab on the subject abab (spans (0,2)
and (2,4)). -/
theorem splitStringAtAllMatches_roundTrip_witness :
    MatcherBounded (litRegex "ab".toList "abab".toList) ("abab".toList).length ∧
    MatcherLeftmost (litRegex "ab".toList "abab".toList) ∧
    ((∀ t ∈ splitStringAtAllMatches "abab".toList (litRegex "ab".toList "abab".toList),
        t.left ++ t.middle ++ t.right = "abab".toList) ∧
      (findAllStringIndex (litRegex "ab".toList "abab".toList)
          ("abab".toList).length).Pairwise (fun a b => a.2 ≤ b.1 ∧ a.1 < b.1)) :=
  ⟨litFirstFrom_bounded _ _, litFirstFrom_leftmost _ _,
    splitStringAtAllMatches_roundTrip "abab".toList (litRegex "ab".toList "abab".toList)
      (litFirstFrom_bounded _ _) (litFirstFrom_leftmost _ _)⟩

/-! ### The filesystem model

A filesystem is an immutable finite tree; a path is the list of names leading
to a node.  Symlinks are not modelled (the repository itself notes that
symlink loops are an unsolved defect); permissions are not modelled, so a
stat failure is a path that does not resolve.  Mutual inductives are used so
that all functions below are structural and evaluate in the kernel. -/

mutual
inductive FSNode where
  | file (name : Str) (lines : List Str)
  | dir (name : Str) (children : FSList)
inductive FSList where
  | nil
  | cons (head : FSNode) (tail : FSList)
end

def FSList.toList : FSList → List FSNode
  | .nil => []
  | .cons c cs => c :: FSList.toList cs

mutual
def nodeSize : FSNode → Nat
  | .file _ _ => 1
  | .dir _ cs => 1 + nodeSizeList cs
def nodeSizeList : FSList → Nat
  | .nil => 0
  | .cons c cs => nodeSize c + nodeSizeList cs
end

def nodeName : FSNode → Str
  | .file n _ => n
  | .dir n _ => n

/-- FileInfo.IsDir. -/
def isDirNode : FSNode → Bool
  | .file _ _ => false
  | .dir _ _ => true

/-- Directory lookup by name, as the OS does during path resolution. -/
def childNamed (cs : List FSNode) (n : Str) : Option FSNode :=
  cs.find? (fun c => nodeName c == n)

/-- os.Stat relative to a node: walk the path component by component. -/
def resolvePath : FSNode → List Str → Option FSNode
  | t, [] => some t
  | t, n :: rest =>
    match t with
    | .file _ _ => none
    | .dir _ cs =>
      match childNamed cs.toList n with
      | none => none
      | some c => resolvePath c rest

/-- FileInfoWithPath from search.go: a stat result plus the path it was
reached through. -/
structure FileInfoWithPath where
  info : FSNode
  path : List Str

/-- The entries a directory entry expands to (ReadDir plus filepath.Join).
The filesystem is immutable, so statting the path of a directory entry that
discovery just produced yields that entry's own node; the loop therefore
reads the children straight off the entry. -/
def entryChildren (e : FileInfoWithPath) : List FileInfoWithPath :=
  match e.info with
  | .file _ _ => []
  | .dir _ cs => cs.toList.map (fun c => ⟨c, e.path ++ [nodeName c]⟩)

/-- getFileInfoWithPaths from the queue-based revisions: stat each root; on a
stat failure report (if verbose) and continue with the remaining roots; a
directory root contributes its children, a file root contributes itself. -/
def getFileInfoWithPaths (fs : FSNode) : List (List Str) → List FileInfoWithPath
  | [] => []
  | p :: rest =>
    match resolvePath fs p with
    | none => getFileInfoWithPaths fs rest
    | some n =>
      match n with
      | .dir _ cs =>
        (cs.toList.map (fun c => ⟨c, p ++ [nodeName c]⟩)) ++ getFileInfoWithPaths fs rest
      | .file nm ls => ⟨.file nm ls, p⟩ :: getFileInfoWithPaths fs rest

/-- discoverFilesShallow from the channel-based revision: identical
per-root behaviour, except that a stat failure executes a bare return,
abandoning the remaining roots (and leaving the channel unclosed). -/
def discoverFilesShallow (fs : FSNode) : List (List Str) → List FileInfoWithPath
  | [] => []
  | p :: rest =>
    match resolvePath fs p with
    | none => []
    | some n =>
      match n with
      | .dir _ cs =>
        (cs.toList.map (fun c => ⟨c, p ++ [nodeName c]⟩)) ++ discoverFilesShallow fs rest
      | .file nm ls => ⟨.file nm ls, p⟩ :: discoverFilesShallow fs rest

/-- discoverFilesRecursive from the channel-based revision: emit one shallow
level, collect the directories among the emitted entries as the next
frontier, repeat until the frontier is empty.  The Go loop terminates on
acyclic trees because each frontier consists of strict subtrees of the
previous one; the fuel below is instantiated with a bound that the loop can
never exhaust. -/
def discoverFilesRecursive (fs : FSNode) : Nat → List (List Str) → List FileInfoWithPath
  | 0, _ => []
  | fuel+1, paths =>
    if paths.isEmpty then []
    else
      let level := discoverFilesShallow fs paths
      level ++ discoverFilesRecursive fs fuel
        ((level.filter (fun e => isDirNode e.info)).map (fun e => e.path))

/-! ### Whitespace, trimming, nullbyte detection -/

/-- unicode.IsSpace restricted to the Latin-1 space characters Go lists
explicitly (space, tab, newline, vertical tab, form feed, carriage return,
NEL, NBSP).  NUL is not whitespace. -/
def isSpaceChar (c : Char) : Bool :=
  c == Char.ofNat 32 || c == Char.ofNat 9 || c == Char.ofNat 10 || c == Char.ofNat 11 ||
  c == Char.ofNat 12 || c == Char.ofNat 13 || c == Char.ofNat 133 || c == Char.ofNat 160

/-- strings.TrimSpace: drop whitespace from both ends. -/
def trimSpace (s : Str) : Str :=
  ((s.dropWhile isSpaceChar).reverse.dropWhile isSpaceChar).reverse

/-- The count of leading whitespace characters of the raw line (the loop in
searchFileContents that breaks at the first non-space rune). -/
def leadingSpace (s : Str) : Nat := (s.takeWhile isSpaceChar).length

/-- Whether a line contains a literal NUL character. -/
def containsNul (s : Str) : Bool := s.any (fun c => c == Char.ofNat 0)

/-! ### Counters, events, and the search loop -/

/-- The four process counters matchCount, searchCount, discoverCount,
skipCount; one logical instance per run (they start at zero). -/
structure Counters where
  matched    : Nat
  searched   : Nat
  discovered : Nat
  skipped    : Nat
deriving DecidableEq, Repr

def counters0 : Counters := ⟨0, 0, 0, 0⟩

/-- One listener callback: listener(path, match, lineNumber, column), with
line = -1 and column = -1 for filename matches. -/
structure MatchEvent where
  path   : List Str
  middle : Str
  line   : Int
  column : Int
deriving DecidableEq, Repr

/-- searchFilename: one searched increment per entry, one matched increment
and one listener call per triple found in the entry's base name. -/
def searchFilename (re : Regex) (f : FileInfoWithPath) (c : Counters)
    (evs : List MatchEvent) : Counters × List MatchEvent :=
  let c1 := { c with searched := c.searched + 1 }
  let triples := splitStringAtAllMatches (nodeName f.info) (re (nodeName f.info))
  ({ c1 with matched := c1.matched + triples.length },
    evs ++ triples.map (fun t => ⟨f.path, t.middle, -1, -1⟩))

/-- The scanner loop of searchFileContents, one line at a time: trim the
line, count the raw line's leading whitespace, and (unless noSkip) stop the
whole file with one skip increment when the trimmed line contains a NUL;
otherwise count the line as searched and emit one match event per triple,
with column = len(left) + leadingSpace. -/
def scanLines (re : Regex) (noSkip : Bool) (path : List Str) :
    List Str → Nat → Counters → List MatchEvent → Counters × List MatchEvent
  | [], _, c, evs => (c, evs)
  | raw :: rest, lineNumber, c, evs =>
    let line := trimSpace raw
    let leading := leadingSpace raw
    if !noSkip && containsNul line then
      ({ c with skipped := c.skipped + 1 }, evs)
    else
      let c1 := { c with searched := c.searched + 1 }
      let triples := splitStringAtAllMatches line (re line)
      scanLines re noSkip path rest (lineNumber + 1)
        { c1 with matched := c1.matched + triples.length }
        (evs ++ triples.map (fun t =>
          ⟨path, t.middle, (lineNumber : Int), ((t.left.length + leading : Nat) : Int)⟩))

/-- searchFileContents: directories (and unmodelled symlinks) are skip
events, never content-scanned; otherwise scan the lines from line number 1.
Open failures are not modelled (a file present in the tree opens). -/
def searchFileContents (re : Regex) (noSkip : Bool) (f : FileInfoWithPath)
    (c : Counters) (evs : List MatchEvent) : Counters × List MatchEvent :=
  match f.info with
  | .dir _ _ => ({ c with skipped := c.skipped + 1 }, evs)
  | .file _ ls => scanLines re noSkip f.path ls 1 c evs

/-- Regexp.MatchString: the name filter test. -/
def matchString (re : Regex) (s : Str) : Bool := (re s 0).isSome

/-- The configuration record FindParameters (absPaths, help and the output
colour switch only affect formatting and are not modelled). -/
structure FindParameters where
  paths        : List (List Str)
  regexString  : Str
  recursive    : Bool
  filterString : Str
  fnamesOnly   : Bool
  ignoreCase   : Bool
  quiet        : Bool
  verbose      : Bool
  noSkip       : Bool

/-- NewFindParameters: the defaults used by the tests (path ".", which is the
root of the model filesystem). -/
def NewFindParameters (regexString : Str) : FindParameters :=
  { paths := [[]], regexString := regexString, recursive := false, filterString := [],
    fnamesOnly := false, ignoreCase := false, quiet := false, verbose := false,
    noSkip := false }

def entrySize (e : FileInfoWithPath) : Nat := nodeSize e.info

def queueSize (q : List FileInfoWithPath) : Nat := (q.map entrySize).sum

/-- The queue loop of find: pull the head entry (discovered+1); if it is a
directory and the run is recursive, append its children to the queue (before
the filter test, so a filtered-out directory is still traversed); then either
skip it on a failed name filter, or dispatch to filename or content search.
Each iteration removes an entry whose subtree strictly dominates what it
appends, so the fuel supplied by find is never exhausted. -/
def findLoop (re flt : Regex) (p : FindParameters) :
    Nat → List FileInfoWithPath → Counters → List MatchEvent → Counters × List MatchEvent
  | 0, _, c, evs => (c, evs)
  | _+1, [], c, evs => (c, evs)
  | fuel+1, f :: queue, c, evs =>
    let c1 := { c with discovered := c.discovered + 1 }
    let queue2 := if isDirNode f.info && p.recursive then queue ++ entryChildren f else queue
    if !p.filterString.isEmpty && !matchString flt (nodeName f.info) then
      findLoop re flt p fuel queue2 { c1 with skipped := c1.skipped + 1 } evs
    else if p.fnamesOnly then
      let r := searchFilename re f c1 evs
      findLoop re flt p fuel queue2 r.1 r.2
    else
      let r := searchFileContents re p.noSkip f c1 evs
      findLoop re flt p fuel queue2 r.1 r.2

/-- The inline case-insensitivity marker prepended to both pattern sources. -/
def maybeIgnoreCaseOf (p : FindParameters) : Str :=
  if p.ignoreCase then "(?i)".toList else []

/-- find: validate the configuration (in source order), compile both
patterns through the engine's compiler, then run the queue loop over the
entries discovered from the root paths.  Returns the error message on a
validation failure, mirroring the (bool, string) result. -/
def find (compile : Str → Option Regex) (fs : FSNode) (p : FindParameters) :
    Except String (Counters × List MatchEvent) :=
  if p.quiet && p.verbose then
    Except.error "The quiet and verbose modes are mutually exclusive."
  else if !p.filterString.isEmpty && p.fnamesOnly then
    Except.error "Using the filter while searching for filenames is redundant."
  else
    match compile (maybeIgnoreCaseOf p ++ p.regexString) with
    | none => Except.error "Bad mandatory regex"
    | some regex =>
      match compile (maybeIgnoreCaseOf p ++ p.filterString) with
      | none => Except.error "Bad filter regex"
      | some flt =>
        let queue := getFileInfoWithPaths fs p.paths
        Except.ok (findLoop regex flt p (queueSize queue + 1) queue counters0 [])

/-- The compiler of the literal engine: every pattern string is taken
literally and always compiles. -/
def litCompile : Str → Option Regex := fun pat => some (litRegex pat)

/-! ### Validation (claim C8) -/

/-- C8: the search aborts with a validation failure if and only if quiet and
verbose are both set, or a non-empty name filter is supplied together with
filenames-only mode, or the mandatory pattern or the filter pattern fails to
compile; moreover a validation failure is independent of the filesystem, so
it happens before any discovery and no entry is processed. -/
theorem find_validation (compile : Str → Option Regex) (fs : FSNode) (p : FindParameters) :
    ((∃ msg, find compile fs p = Except.error msg) ↔
      (p.quiet = true ∧ p.verbose = true) ∨
      (p.filterString ≠ [] ∧ p.fnamesOnly = true) ∨
      compile (maybeIgnoreCaseOf p ++ p.regexString) = none ∨
      compile (maybeIgnoreCaseOf p ++ p.filterString) = none) ∧
    (∀ msg fs2, find compile fs p = Except.error msg → find compile fs2 p = Except.error msg) := by
  by_cases hqv : (p.quiet && p.verbose) = true
  · have e : ∀ fs2 : FSNode, find compile fs2 p =
        Except.error "The quiet and verbose modes are mutually exclusive." := by
      intro fs2; simp [find, hqv]
    have h1 : p.quiet = true ∧ p.verbose = true := by simpa using hqv
    refine ⟨⟨fun _ => Or.inl h1, fun _ => ⟨_, e fs⟩⟩, fun msg fs2 h => ?_⟩
    rw [e fs] at h
    rw [e fs2, ← h]
  · by_cases hfn : (!p.filterString.isEmpty && p.fnamesOnly) = true
    · have e : ∀ fs2 : FSNode, find compile fs2 p =
          Except.error "Using the filter while searching for filenames is redundant." := by
        intro fs2; simp [find, hqv, hfn]
      have h2 : p.filterString ≠ [] ∧ p.fnamesOnly = true := by
        have := hfn
        simp [Bool.and_eq_true] at this
        exact ⟨by simpa using this.1, this.2⟩
      refine ⟨⟨fun _ => Or.inr (Or.inl h2), fun _ => ⟨_, e fs⟩⟩, fun msg fs2 h => ?_⟩
      rw [e fs] at h
      rw [e fs2, ← h]
    · cases hre : compile (maybeIgnoreCaseOf p ++ p.regexString) with
      | none =>
        have e : ∀ fs2 : FSNode, find compile fs2 p = Except.error "Bad mandatory regex" := by
          intro fs2; simp [find, hqv, hfn, hre]
        refine ⟨⟨fun _ => Or.inr (Or.inr (Or.inl rfl)), fun _ => ⟨_, e fs⟩⟩, fun msg fs2 h => ?_⟩
        rw [e fs] at h
        rw [e fs2, ← h]
      | some regex =>
        cases hflt : compile (maybeIgnoreCaseOf p ++ p.filterString) with
        | none =>
          have e : ∀ fs2 : FSNode, find compile fs2 p = Except.error "Bad filter regex" := by
            intro fs2; simp [find, hqv, hfn, hre, hflt]
          refine ⟨⟨fun _ => Or.inr (Or.inr (Or.inr rfl)), fun _ => ⟨_, e fs⟩⟩,
            fun msg fs2 h => ?_⟩
          rw [e fs] at h
          rw [e fs2, ← h]
        | some flt =>
          have e : ∀ fs2 : FSNode, find compile fs2 p =
              Except.ok (findLoop regex flt p
                (queueSize (getFileInfoWithPaths fs2 p.paths) + 1)
                (getFileInfoWithPaths fs2 p.paths) counters0 []) := by
            intro fs2; simp [find, hqv, hfn, hre, hflt]
          refine ⟨⟨?_, ?_⟩, fun msg fs2 h => ?_⟩
          · rintro ⟨msg, hmsg⟩
            rw [e fs] at hmsg
            exact absurd hmsg (by simp)
          · intro hdisj
            exfalso
            rcases hdisj with ⟨hq, hv⟩ | ⟨hne, hb⟩ | h | h
            · exact hqv (by simp [hq, hv])
            · exact hfn (by simp [hb, hne])
            · exact Option.noConfusion h
            · exact Option.noConfusion h
          · rw [e fs] at h
            exact absurd h (by simp)

/-! ### Per-root discovery failure (claim C7) -/

def rootFailFS : FSNode := .dir [] (.cons (.file "b.txt".toList ["keep".toList]) .nil)

/-- C7: on a filesystem holding only the file b.txt, with the two roots
[missing, b.txt], the channel-based discoverFilesShallow stops at the failed
stat of the first root and emits nothing for the healthy sibling root,
whereas the healthy root alone yields its entry and the queue-based
getFileInfoWithPaths of the other revisions skips the bad root and still
emits the sibling's entry. -/
theorem discoverFilesShallow_abortsSiblings :
    discoverFilesShallow rootFailFS [["missing".toList], ["b.txt".toList]] = [] ∧
    discoverFilesShallow rootFailFS [["b.txt".toList]] =
      [⟨.file "b.txt".toList ["keep".toList], ["b.txt".toList]⟩] ∧
    getFileInfoWithPaths rootFailFS [["missing".toList], ["b.txt".toList]] =
      [⟨.file "b.txt".toList ["keep".toList], ["b.txt".toList]⟩] :=
  ⟨rfl, rfl, rfl⟩

/-! ### Counter monotonicity (claim C2) -/

def countersLE (a b : Counters) : Prop :=
  a.matched ≤ b.matched ∧ a.searched ≤ b.searched ∧
  a.discovered ≤ b.discovered ∧ a.skipped ≤ b.skipped

theorem countersLE_refl (a : Counters) : countersLE a a :=
  ⟨Nat.le_refl _, Nat.le_refl _, Nat.le_refl _, Nat.le_refl _⟩

theorem countersLE_trans (a b c : Counters) (h1 : countersLE a b) (h2 : countersLE b c) :
    countersLE a c :=
  ⟨Nat.le_trans h1.1 h2.1, Nat.le_trans h1.2.1 h2.2.1,
    Nat.le_trans h1.2.2.1 h2.2.2.1, Nat.le_trans h1.2.2.2 h2.2.2.2⟩

theorem scanLines_mono (re : Regex) (ns : Bool) (path : List Str) :
    ∀ lines k c evs, countersLE c (scanLines re ns path lines k c evs).1 := by
  intro lines
  induction lines with
  | nil => intro k c evs; exact countersLE_refl c
  | cons raw rest ih =>
    intro k c evs
    simp only [scanLines]
    by_cases hnul : (!ns && containsNul (trimSpace raw)) = true
    · simp only [hnul, if_true]
      exact ⟨Nat.le_refl _, Nat.le_refl _, Nat.le_refl _, Nat.le_succ _⟩
    · simp only [hnul, if_false, Bool.false_eq_true]
      refine countersLE_trans _ _ _ ?_ (ih (k+1) _ _)
      exact ⟨Nat.le_add_right _ _, Nat.le_succ _, Nat.le_refl _, Nat.le_refl _⟩

theorem searchFilename_mono (re : Regex) (f : FileInfoWithPath) (c : Counters)
    (evs : List MatchEvent) : countersLE c (searchFilename re f c evs).1 :=
  ⟨Nat.le_add_right _ _, Nat.le_succ _, Nat.le_refl _, Nat.le_refl _⟩

theorem searchFileContents_mono (re : Regex) (ns : Bool) (f : FileInfoWithPath)
    (c : Counters) (evs : List MatchEvent) :
    countersLE c (searchFileContents re ns f c evs).1 := by
  cases hf : f.info with
  | dir nm cs =>
    simp only [searchFileContents, hf]
    exact ⟨Nat.le_refl _, Nat.le_refl _, Nat.le_refl _, Nat.le_succ _⟩
  | file nm ls =>
    simp only [searchFileContents, hf]
    exact scanLines_mono re ns f.path ls 1 c evs

/-- C2 amended: the counters are monotone over the search loop: starting the
loop from any counter state only ever increases each of matched, searched,
discovered and skipped (in particular all four are nonnegative after a run,
which starts from zero); the chain discovered >= searched >= matched itself
does not hold, see the counterexample. -/
theorem findLoop_counters_monotone (re flt : Regex) (p : FindParameters) :
    ∀ fuel q c evs, countersLE c (findLoop re flt p fuel q c evs).1 := by
  intro fuel
  induction fuel with
  | zero => intro q c evs; exact countersLE_refl c
  | succ fuel ih =>
    intro q c evs
    cases q with
    | nil => exact countersLE_refl c
    | cons f queue =>
      simp only [findLoop]
      by_cases hfil : (!p.filterString.isEmpty && !matchString flt (nodeName f.info)) = true
      · simp only [hfil, if_true]
        refine countersLE_trans _ _ _ ?_ (ih _ _ _)
        exact ⟨Nat.le_refl _, Nat.le_refl _, Nat.le_succ _, Nat.le_succ _⟩
      · simp only [hfil, if_false, Bool.false_eq_true]
        by_cases hfo : p.fnamesOnly = true
        · simp only [hfo, if_true]
          refine countersLE_trans _ _ _ ?_ (ih _ _ _)
          refine countersLE_trans _ _ _ ?_ (searchFilename_mono re f _ evs)
          exact ⟨Nat.le_refl _, Nat.le_refl _, Nat.le_succ _, Nat.le_refl _⟩
        · simp only [hfo, if_false, Bool.false_eq_true]
          refine countersLE_trans _ _ _ ?_ (ih _ _ _)
          refine countersLE_trans _ _ _ ?_ (searchFileContents_mono re p.noSkip f _ evs)
          exact ⟨Nat.le_refl _, Nat.le_refl _, Nat.le_succ _, Nat.le_refl _⟩

/-! ### The counter chain fails (claim C2, counterexample) -/

def twoLineFS : FSNode := .dir [] (.cons (.file "a.txt".toList ["q".toList, "q".toList]) .nil)

def oneLineFS : FSNode := .dir [] (.cons (.file "b.txt".toList ["foofoo".toList]) .nil)

/-- The claim discovered >= searched >= matched is false on the code: a run
over the single two-line file a.txt (pattern zzz) ends with discovered = 1
but searched = 2, and a run over the single one-line file b.txt containing
foofoo (pattern foo) ends with searched = 1 but matched = 2. -/
theorem counters_chain_counterexample :
    (∃ c evs, find litCompile twoLineFS
        { NewFindParameters "zzz".toList with paths := [["a.txt".toList]] } =
          Except.ok (c, evs) ∧ c.discovered < c.searched) ∧
    (∃ c evs, find litCompile oneLineFS
        { NewFindParameters "foo".toList with paths := [["b.txt".toList]] } =
          Except.ok (c, evs) ∧ c.searched < c.matched) :=
  ⟨⟨⟨0, 2, 1, 0⟩, [], rfl, by decide⟩,
    ⟨⟨2, 1, 1, 0⟩,
      [⟨["b.txt".toList], "foo".toList, 1, 0⟩, ⟨["b.txt".toList], "foo".toList, 1, 3⟩],
      rfl, by decide⟩⟩

/-! ### Exact counting laws (claim C3) -/

/-- How many lines of a file the scanner counts as searched: all of them when
noSkip is set, otherwise the lines before the first whose trimmed form
contains a NUL (that line itself is not searched). -/
def linesScanned (ns : Bool) (lines : List Str) : Nat :=
  if ns then lines.length
  else (lines.takeWhile (fun l => !containsNul (trimSpace l))).length

theorem scanLines_searched (re : Regex) (ns : Bool) (path : List Str) :
    ∀ lines k c evs, (scanLines re ns path lines k c evs).1.searched =
      c.searched + linesScanned ns lines := by
  intro lines
  induction lines with
  | nil => intro k c evs; simp [scanLines, linesScanned]
  | cons raw rest ih =>
    intro k c evs
    simp only [scanLines]
    by_cases hnul : (!ns && containsNul (trimSpace raw)) = true
    · simp only [hnul, if_true]
      obtain ⟨h1, h2⟩ : (!ns) = true ∧ containsNul (trimSpace raw) = true := by
        simpa using hnul
      have hns : ns = false := by simpa using h1
      subst hns
      simp [linesScanned, List.takeWhile_cons, h2]
    · simp only [hnul, if_false, Bool.false_eq_true]
      rw [ih]
      cases hns : ns with
      | true => simp [linesScanned]; omega
      | false =>
        have h2 : containsNul (trimSpace raw) = false := by
          subst hns; simpa using hnul
        simp [linesScanned, List.takeWhile_cons, h2]
        omega

theorem scanLines_matched (re : Regex) (ns : Bool) (path : List Str) :
    ∀ lines k c evs, (scanLines re ns path lines k c evs).1.matched + evs.length =
      c.matched + (scanLines re ns path lines k c evs).2.length := by
  intro lines
  induction lines with
  | nil => intro k c evs; rfl
  | cons raw rest ih =>
    intro k c evs
    simp only [scanLines]
    by_cases hnul : (!ns && containsNul (trimSpace raw)) = true
    · simp only [hnul, if_true]
    · simp only [hnul, if_false, Bool.false_eq_true]
      have hih := ih (k+1)
        { c with searched := c.searched + 1, matched := c.matched + (splitStringAtAllMatches (trimSpace raw) (re (trimSpace raw))).length }
        (evs ++ (splitStringAtAllMatches (trimSpace raw) (re (trimSpace raw))).map (fun t =>
          ⟨path, t.middle, (k : Int), ((t.left.length + leadingSpace raw : Nat) : Int)⟩))
      simp only [List.length_append, List.length_map] at hih
      omega

theorem scanLines_discovered (re : Regex) (ns : Bool) (path : List Str) :
    ∀ lines k c evs, (scanLines re ns path lines k c evs).1.discovered = c.discovered := by
  intro lines
  induction lines with
  | nil => intro k c evs; rfl
  | cons raw rest ih =>
    intro k c evs
    simp only [scanLines]
    by_cases hnul : (!ns && containsNul (trimSpace raw)) = true
    · simp only [hnul, if_true]
    · simp only [hnul, if_false, Bool.false_eq_true]
      exact ih (k+1) _ _

theorem searchFilename_searched (re : Regex) (f : FileInfoWithPath) (c : Counters)
    (evs : List MatchEvent) : (searchFilename re f c evs).1.searched = c.searched + 1 := rfl

theorem searchFilename_matched (re : Regex) (f : FileInfoWithPath) (c : Counters)
    (evs : List MatchEvent) : (searchFilename re f c evs).1.matched + evs.length =
      c.matched + (searchFilename re f c evs).2.length := by
  simp only [searchFilename, List.length_append, List.length_map]
  omega

theorem searchFilename_discovered (re : Regex) (f : FileInfoWithPath) (c : Counters)
    (evs : List MatchEvent) : (searchFilename re f c evs).1.discovered = c.discovered := rfl

theorem searchFileContents_matched (re : Regex) (ns : Bool) (f : FileInfoWithPath)
    (c : Counters) (evs : List MatchEvent) :
    (searchFileContents re ns f c evs).1.matched + evs.length =
      c.matched + (searchFileContents re ns f c evs).2.length := by
  cases hf : f.info with
  | dir nm cs => simp [searchFileContents, hf]
  | file nm ls =>
    simp only [searchFileContents, hf]
    exact scanLines_matched re ns f.path ls 1 c evs

theorem searchFileContents_discovered (re : Regex) (ns : Bool) (f : FileInfoWithPath)
    (c : Counters) (evs : List MatchEvent) :
    (searchFileContents re ns f c evs).1.discovered = c.discovered := by
  cases hf : f.info with
  | dir nm cs => simp [searchFileContents, hf]
  | file nm ls =>
    simp only [searchFileContents, hf]
    exact scanLines_discovered re ns f.path ls 1 c evs

mutual
/-- The number of entries a queue entry's node contributes to the processed
stream: itself, plus (in recursive mode) everything below a directory. -/
def entryStream (r : Bool) : FSNode → Nat
  | .file _ _ => 1
  | .dir _ cs => 1 + (if r then entryStreamList r cs else 0)
def entryStreamList (r : Bool) : FSList → Nat
  | .nil => 0
  | .cons c cs => entryStream r c + entryStreamList r cs
end

def streamCount (r : Bool) (q : List FileInfoWithPath) : Nat :=
  (q.map (fun e => entryStream r e.info)).sum

theorem entryStreamList_eq (r : Bool) :
    ∀ cs : FSList, ((FSList.toList cs).map (entryStream r)).sum = entryStreamList r cs
  | .nil => rfl
  | .cons c rest => by
    simp [FSList.toList, entryStreamList, entryStreamList_eq r rest]

theorem nodeSizeList_eq :
    ∀ cs : FSList, ((FSList.toList cs).map nodeSize).sum = nodeSizeList cs
  | .nil => rfl
  | .cons c rest => by
    simp [FSList.toList, nodeSizeList, nodeSizeList_eq rest]

theorem nodeSize_pos (n : FSNode) : 1 ≤ nodeSize n := by
  cases n with
  | file nm ls => exact Nat.le_refl 1
  | dir nm cs => simp [nodeSize]

theorem queueSize_append (q1 q2 : List FileInfoWithPath) :
    queueSize (q1 ++ q2) = queueSize q1 + queueSize q2 := by
  simp [queueSize]

theorem queueSize_children (f : FileInfoWithPath) (h : isDirNode f.info = true) :
    queueSize (entryChildren f) + 1 = nodeSize f.info := by
  cases hf : f.info with
  | file nm ls => rw [hf] at h; exact absurd h (by simp [isDirNode])
  | dir nm cs =>
    have hmap : (entrySize ∘ fun c => FileInfoWithPath.mk c (f.path ++ [nodeName c])) = nodeSize :=
      funext fun c => rfl
    have hq : queueSize (entryChildren f) = nodeSizeList cs := by
      simp only [entryChildren, hf, queueSize, List.map_map, hmap, nodeSizeList_eq]
    rw [hq]
    simp [nodeSize]
    omega

theorem entryStream_one (r : Bool) (n : FSNode) (h : ¬ (isDirNode n && r) = true) :
    entryStream r n = 1 := by
  cases n with
  | file nm ls => rfl
  | dir nm cs =>
    have hr : r = false := by
      cases r with
      | false => rfl
      | true => exact absurd (by simp [isDirNode]) h
    subst hr
    simp [entryStream]

/-- Pulling an entry and (in recursive mode) enqueueing a directory's
children preserves the total stream count, one entry at a time. -/
theorem streamCount_step (r : Bool) (f : FileInfoWithPath) (queue : List FileInfoWithPath) :
    streamCount r (if isDirNode f.info && r then queue ++ entryChildren f else queue) + 1 =
      streamCount r (f :: queue) := by
  by_cases hg : (isDirNode f.info && r) = true
  · rw [if_pos hg]
    obtain ⟨hd, hr⟩ : isDirNode f.info = true ∧ r = true := by simpa using hg
    subst hr
    cases hf : f.info with
    | file nm ls => rw [hf] at hd; exact absurd hd (by simp [isDirNode])
    | dir nm cs =>
      have hmap : ((fun e => entryStream true e.info) ∘
          fun c => FileInfoWithPath.mk c (f.path ++ [nodeName c])) = entryStream true :=
        funext fun c => rfl
      have hch : streamCount true (entryChildren f) = entryStreamList true cs := by
        simp only [entryChildren, hf, streamCount, List.map_map, hmap, entryStreamList_eq]
      have happ : streamCount true (queue ++ entryChildren f) =
          streamCount true queue + streamCount true (entryChildren f) := by
        simp [streamCount]
      rw [happ, hch]
      simp [streamCount, hf, entryStream]
      omega
  · rw [if_neg hg]
    have h1 : entryStream r f.info = 1 := entryStream_one r f.info hg
    simp [streamCount, h1]
    omega

theorem findLoop_discovered (re flt : Regex) (p : FindParameters) :
    ∀ fuel q c evs, queueSize q < fuel →
      (findLoop re flt p fuel q c evs).1.discovered =
        c.discovered + streamCount p.recursive q := by
  intro fuel
  induction fuel with
  | zero => intro q c evs h; exact absurd h (Nat.not_lt_zero _)
  | succ fuel ih =>
    intro q c evs h
    cases q with
    | nil => simp [findLoop, streamCount]
    | cons f queue =>
      have hsz : queueSize (f :: queue) = entrySize f + queueSize queue := by
        simp [queueSize]
      have hpos : 1 ≤ entrySize f := nodeSize_pos f.info
      have he : entrySize f = nodeSize f.info := rfl
      have hq2 : queueSize (if isDirNode f.info && p.recursive then
          queue ++ entryChildren f else queue) < fuel := by
        by_cases hg : (isDirNode f.info && p.recursive) = true
        · rw [if_pos hg, queueSize_append]
          have hd : isDirNode f.info = true := by
            have hg2 := hg
            simp [Bool.and_eq_true] at hg2
            exact hg2.1
          have hc := queueSize_children f hd
          omega
        · rw [if_neg hg]
          omega
      have hstep := streamCount_step p.recursive f queue
      simp only [findLoop]
      by_cases hfil : (!p.filterString.isEmpty && !matchString flt (nodeName f.info)) = true
      · simp only [hfil, if_true]
        rw [ih _ _ _ hq2]
        simp only []
        omega
      · simp only [hfil, if_false, Bool.false_eq_true]
        by_cases hfo : p.fnamesOnly = true
        · simp only [hfo, if_true]
          rw [ih _ _ _ hq2, searchFilename_discovered]
          simp only []
          omega
        · simp only [hfo, if_false, Bool.false_eq_true]
          rw [ih _ _ _ hq2, searchFileContents_discovered]
          simp only []
          omega

theorem findLoop_matched (re flt : Regex) (p : FindParameters) :
    ∀ fuel q c evs, (findLoop re flt p fuel q c evs).1.matched + evs.length =
      c.matched + (findLoop re flt p fuel q c evs).2.length := by
  intro fuel
  induction fuel with
  | zero => intro q c evs; rfl
  | succ fuel ih =>
    intro q c evs
    cases q with
    | nil => rfl
    | cons f queue =>
      simp only [findLoop]
      by_cases hfil : (!p.filterString.isEmpty && !matchString flt (nodeName f.info)) = true
      · simp only [hfil, if_true]
        exact ih _ _ _
      · simp only [hfil, if_false, Bool.false_eq_true]
        by_cases hfo : p.fnamesOnly = true
        · simp only [hfo, if_true]
          have h1 := searchFilename_matched re f
            { c with discovered := c.discovered + 1 } evs
          have h2 := ih (if isDirNode f.info && p.recursive then
              queue ++ entryChildren f else queue)
            (searchFilename re f { c with discovered := c.discovered + 1 } evs).1
            (searchFilename re f { c with discovered := c.discovered + 1 } evs).2
          simp only [] at h1 h2 ⊢
          omega
        · simp only [hfo, if_false, Bool.false_eq_true]
          have h1 := searchFileContents_matched re p.noSkip f
            { c with discovered := c.discovered + 1 } evs
          have h2 := ih (if isDirNode f.info && p.recursive then
              queue ++ entryChildren f else queue)
            (searchFileContents re p.noSkip f { c with discovered := c.discovered + 1 } evs).1
            (searchFileContents re p.noSkip f { c with discovered := c.discovered + 1 } evs).2
          simp only [] at h1 h2 ⊢
          omega

/-- C3 corrected: during a search, discovered is incremented exactly once per
entry pulled from the stream (the run total is the stream count), matched
exactly once per match event produced (the matched delta always equals the
event-list delta), and searched once per LINE scanned in content mode
(linesScanned) and once per entry in filename mode, not once per entry in
general. -/
theorem counters_exact_counting (re flt : Regex) (p : FindParameters) (ns : Bool)
    (path : List Str) (lines : List Str) (k : Nat) (c : Counters) (evs : List MatchEvent)
    (f : FileInfoWithPath) (fuel : Nat) (q : List FileInfoWithPath)
    (h : queueSize q < fuel) :
    (scanLines re ns path lines k c evs).1.searched = c.searched + linesScanned ns lines ∧
    (searchFilename re f c evs).1.searched = c.searched + 1 ∧
    (findLoop re flt p fuel q c evs).1.matched + evs.length =
      c.matched + (findLoop re flt p fuel q c evs).2.length ∧
    (findLoop re flt p fuel q c evs).1.discovered =
      c.discovered + streamCount p.recursive q :=
  ⟨scanLines_searched re ns path lines k c evs, searchFilename_searched re f c evs,
    findLoop_matched re flt p fuel q c evs, findLoop_discovered re flt p fuel q c evs h⟩

def threeLineFS : FSNode :=
  .dir [] (.cons (.file "c.txt".toList ["x".toList, "x".toList, "x".toList]) .nil)

/-- The per-entry claim for searched is false on the code: a run that pulls
exactly one entry (discovered = 1), a three-line file, ends with
searched = 3, so searched was incremented per line, not per entry. -/
theorem searched_per_line_counterexample :
    ∃ c evs, find litCompile threeLineFS
        { NewFindParameters "zzz".toList with paths := [["c.txt".toList]] } =
          Except.ok (c, evs) ∧ c.discovered = 1 ∧ c.searched = 3 :=
  ⟨⟨0, 3, 1, 0⟩, [], rfl, rfl, rfl⟩

/-- Witness for the counting laws at a concrete one-file queue. -/
theorem counters_exact_counting_witness :
    queueSize (getFileInfoWithPaths twoLineFS [["a.txt".toList]]) < 3 ∧
    ((scanLines (litRegex "q".toList) false [] ["q".toList] 1 counters0 []).1.searched =
        counters0.searched + linesScanned false ["q".toList] ∧
      (searchFilename (litRegex "q".toList) ⟨.file "a".toList [], []⟩ counters0 []).1.searched =
        counters0.searched + 1 ∧
      (findLoop (litRegex "q".toList) (litRegex "q".toList) (NewFindParameters "q".toList) 3
            (getFileInfoWithPaths twoLineFS [["a.txt".toList]]) counters0 []).1.matched +
          (List.length ([] : List MatchEvent)) =
        counters0.matched +
          (findLoop (litRegex "q".toList) (litRegex "q".toList) (NewFindParameters "q".toList) 3
            (getFileInfoWithPaths twoLineFS [["a.txt".toList]]) counters0 []).2.length ∧
      (findLoop (litRegex "q".toList) (litRegex "q".toList) (NewFindParameters "q".toList) 3
            (getFileInfoWithPaths twoLineFS [["a.txt".toList]]) counters0 []).1.discovered =
        counters0.discovered +
          streamCount (NewFindParameters "q".toList).recursive
            (getFileInfoWithPaths twoLineFS [["a.txt".toList]])) :=
  ⟨by decide,
    counters_exact_counting (litRegex "q".toList) (litRegex "q".toList)
      (NewFindParameters "q".toList) false [] ["q".toList] 1 counters0 []
      ⟨.file "a".toList [], []⟩ 3 (getFileInfoWithPaths twoLineFS [["a.txt".toList]])
      (by decide)⟩

/-! ### The nullbyte short-circuit (claims C10 and C4) -/

/-- Splicing a file at its first NUL line: the scan equals the scan of the
earlier lines with one skip added, independent of the NUL line's tail. -/
theorem scanLines_splice (re : Regex) (path : List Str) :
    ∀ (pre : List Str) (nl : Str) (rest : List Str) (k : Nat) (c : Counters)
      (evs : List MatchEvent),
      (∀ l ∈ pre, containsNul (trimSpace l) = false) →
      containsNul (trimSpace nl) = true →
      scanLines re false path (pre ++ nl :: rest) k c evs =
        ({ (scanLines re false path pre k c evs).1 with
            skipped := (scanLines re false path pre k c evs).1.skipped + 1 },
          (scanLines re false path pre k c evs).2) := by
  intro pre
  induction pre with
  | nil =>
    intro nl rest k c evs hpre hnl
    simp [scanLines, hnl]
  | cons raw rest2 ih =>
    intro nl rest k c evs hpre hnl
    have hraw : containsNul (trimSpace raw) = false := hpre raw (by simp)
    have hpre2 : ∀ l ∈ rest2, containsNul (trimSpace l) = false :=
      fun l hl => hpre l (by simp [hl])
    have hih := ih nl rest (k+1)
      { c with searched := c.searched + 1, matched := c.matched + (splitStringAtAllMatches (trimSpace raw) (re (trimSpace raw))).length }
      (evs ++ (splitStringAtAllMatches (trimSpace raw) (re (trimSpace raw))).map (fun t =>
        ⟨path, t.middle, (k : Int), ((t.left.length + leadingSpace raw : Nat) : Int)⟩))
      hpre2 hnl
    simp only [List.cons_append, scanLines, hraw, Bool.not_false, Bool.true_and, if_false,
      Bool.false_eq_true]
    exact hih

/-- NUL-free lines never touch the skip counter. -/
theorem scanLines_skipped_nulFree (re : Regex) (path : List Str) :
    ∀ (lines : List Str) (k : Nat) (c : Counters) (evs : List MatchEvent),
      (∀ l ∈ lines, containsNul (trimSpace l) = false) →
      (scanLines re false path lines k c evs).1.skipped = c.skipped := by
  intro lines
  induction lines with
  | nil => intro k c evs _; rfl
  | cons raw rest ih =>
    intro k c evs hpre
    have hraw : containsNul (trimSpace raw) = false := hpre raw (by simp)
    simp only [scanLines, hraw, Bool.not_false, Bool.true_and, if_false, Bool.false_eq_true]
    exact ih (k+1) _ _ (fun l hl => hpre l (by simp [hl]))

/-- Every NUL-free line counts as searched. -/
theorem linesScanned_nulFree (lines : List Str)
    (h : ∀ l ∈ lines, containsNul (trimSpace l) = false) :
    linesScanned false lines = lines.length := by
  simp only [linesScanned, if_neg (by simp : ¬ (false = true))]
  rw [List.takeWhile_eq_self_iff.mpr]
  intro l hl
  simp [h l hl]

/-- C10: when the skip-binary short-circuit fires on the first NUL line of a
file, the whole scan equals the scan of the earlier lines with exactly one
extra skip: every match event already emitted for earlier lines stands and
no later event exists, the earlier lines contributed no skip (so the file is
skipped exactly once), and the NUL line itself is not counted as searched
(searched grows by exactly the number of earlier lines). -/
theorem scanLines_shortCircuit_keepsEvents (re : Regex) (path : List Str)
    (pre : List Str) (nl : Str) (rest : List Str) (k : Nat) (c : Counters)
    (evs : List MatchEvent)
    (hpre : ∀ l ∈ pre, containsNul (trimSpace l) = false)
    (hnl : containsNul (trimSpace nl) = true) :
    scanLines re false path (pre ++ nl :: rest) k c evs =
      ({ (scanLines re false path pre k c evs).1 with
          skipped := (scanLines re false path pre k c evs).1.skipped + 1 },
        (scanLines re false path pre k c evs).2) ∧
    (scanLines re false path pre k c evs).1.skipped = c.skipped ∧
    (scanLines re false path pre k c evs).1.searched = c.searched + pre.length := by
  refine ⟨scanLines_splice re path pre nl rest k c evs hpre hnl,
    scanLines_skipped_nulFree re path pre k c evs hpre, ?_⟩
  rw [scanLines_searched, linesScanned_nulFree pre hpre]

/-- Witness for the short-circuit law: the file of the repository's own test,
a clean line followed by the NUL line. -/
theorem scanLines_shortCircuit_witness :
    (∀ l ∈ ["ok".toList], containsNul (trimSpace l) = false) ∧
    containsNul (trimSpace (Char.ofNat 0 :: "foo".toList)) = true ∧
    (scanLines (litRegex "o".toList) false [] (["ok".toList] ++ (Char.ofNat 0 :: "foo".toList) :: []) 1 counters0 [] =
        ({ (scanLines (litRegex "o".toList) false [] ["ok".toList] 1 counters0 []).1 with
            skipped := (scanLines (litRegex "o".toList) false [] ["ok".toList] 1 counters0 []).1.skipped + 1 },
          (scanLines (litRegex "o".toList) false [] ["ok".toList] 1 counters0 []).2) ∧
      (scanLines (litRegex "o".toList) false [] ["ok".toList] 1 counters0 []).1.skipped =
        counters0.skipped ∧
      (scanLines (litRegex "o".toList) false [] ["ok".toList] 1 counters0 []).1.searched =
        counters0.searched + ["ok".toList].length) :=
  ⟨by decide, by decide,
    scanLines_shortCircuit_keepsEvents (litRegex "o".toList) [] ["ok".toList]
      (Char.ofNat 0 :: "foo".toList) [] 1 counters0 [] (by decide) (by decide)⟩

def nulFS : FSNode :=
  .dir [] (.cons (.file "dontsearch.exe".toList [Char.ofNat 0 :: "foo".toList]) .nil)

def nulParams : FindParameters :=
  { NewFindParameters "foo".toList with paths := [["dontsearch.exe".toList]] }

/-- C4: with skip-binary enabled (default), a trimmed line containing a
literal NUL terminates the scan of the entire file at that line, whatever
lines follow, and counts exactly one skip; concretely, the test file
dontsearch.exe containing NUL ++ foo yields zero matches and one skip by
default, and with skip-binary disabled the NUL line is scanned normally,
yielding one match of foo at line 1, column 1. -/
theorem skipBinary_shortCircuit (re : Regex) (path : List Str) (nl : Str) (rest : List Str)
    (k : Nat) (c : Counters) (evs : List MatchEvent)
    (hnl : containsNul (trimSpace nl) = true) :
    scanLines re false path (nl :: rest) k c evs = ({ c with skipped := c.skipped + 1 }, evs) ∧
    find litCompile nulFS nulParams = Except.ok (⟨0, 0, 1, 1⟩, []) ∧
    find litCompile nulFS { nulParams with noSkip := true } =
      Except.ok (⟨1, 1, 1, 0⟩, [⟨["dontsearch.exe".toList], "foo".toList, 1, 1⟩]) := by
  refine ⟨?_, rfl, rfl⟩
  simp [scanLines, hnl]

/-- Witness for the short-circuit at a concrete NUL line with a tail line. -/
theorem skipBinary_shortCircuit_witness :
    containsNul (trimSpace (Char.ofNat 0 :: "x".toList)) = true ∧
    (scanLines (litRegex "x".toList) false [] ((Char.ofNat 0 :: "x".toList) :: ["y".toList]) 1
        counters0 [] = ({ counters0 with skipped := counters0.skipped + 1 }, []) ∧
      find litCompile nulFS nulParams = Except.ok (⟨0, 0, 1, 1⟩, []) ∧
      find litCompile nulFS { nulParams with noSkip := true } =
        Except.ok (⟨1, 1, 1, 0⟩, [⟨["dontsearch.exe".toList], "foo".toList, 1, 1⟩])) :=
  ⟨by decide,
    skipBinary_shortCircuit (litRegex "x".toList) [] (Char.ofNat 0 :: "x".toList)
      ["y".toList] 1 counters0 [] (by decide)⟩

/-! ### Filtered directories are still traversed (claim C9) -/

def filterFS : FSNode :=
  .dir [] (.cons (.dir "skipdir".toList
    (.cons (.file "hit.txt".toList ["bar".toList]) .nil)) .nil)

def filterParams : FindParameters :=
  { NewFindParameters "bar".toList with recursive := true, filterString := "hit".toList }

/-- C9: in recursive mode, a directory entry whose name fails the configured
name filter is dequeued with its children already appended to the queue (the
traversal step precedes the filter test), one skip counted and no match
event emitted for the directory itself, so its children are still discovered
and processed; concretely, a recursive run filtered to hit with pattern bar
skips the directory skipdir yet reports the match inside
skipdir/hit.txt. -/
theorem filteredDir_stillTraversed (re flt : Regex) (p : FindParameters)
    (f : FileInfoWithPath) (queue : List FileInfoWithPath) (fuel : Nat)
    (c : Counters) (evs : List MatchEvent)
    (hdir : isDirNode f.info = true) (hrec : p.recursive = true)
    (hfil : p.filterString ≠ []) (hnm : matchString flt (nodeName f.info) = false) :
    findLoop re flt p (fuel+1) (f :: queue) c evs =
      findLoop re flt p fuel (queue ++ entryChildren f)
        { c with discovered := c.discovered + 1, skipped := c.skipped + 1 } evs ∧
    find litCompile filterFS filterParams =
      Except.ok (⟨1, 1, 2, 1⟩,
        [⟨["skipdir".toList, "hit.txt".toList], "bar".toList, 1, 0⟩]) := by
  refine ⟨?_, rfl⟩
  have hguard : (isDirNode f.info && p.recursive) = true := by simp [hdir, hrec]
  have hfil2 : (!p.filterString.isEmpty && !matchString flt (nodeName f.info)) = true := by
    simp [hnm, hfil]
  simp only [findLoop, hguard, if_true, hfil2]

/-- Witness for the traversal-before-filter step at the concrete filtered
directory of the scenario. -/
theorem filteredDir_stillTraversed_witness :
    isDirNode (FSNode.dir "skipdir".toList
        (.cons (.file "hit.txt".toList ["bar".toList]) .nil)) = true ∧
    filterParams.recursive = true ∧
    filterParams.filterString ≠ [] ∧
    matchString (litRegex "hit".toList) (nodeName (FSNode.dir "skipdir".toList
        (.cons (.file "hit.txt".toList ["bar".toList]) .nil))) = false ∧
    (findLoop (litRegex "bar".toList) (litRegex "hit".toList) filterParams 2
        ([⟨FSNode.dir "skipdir".toList (.cons (.file "hit.txt".toList ["bar".toList]) .nil),
            ["skipdir".toList]⟩]) counters0 [] =
      findLoop (litRegex "bar".toList) (litRegex "hit".toList) filterParams 1
        ([] ++ entryChildren ⟨FSNode.dir "skipdir".toList
            (.cons (.file "hit.txt".toList ["bar".toList]) .nil), ["skipdir".toList]⟩)
        { counters0 with discovered := counters0.discovered + 1, skipped := counters0.skipped + 1 } [] ∧
      find litCompile filterFS filterParams =
        Except.ok (⟨1, 1, 2, 1⟩,
          [⟨["skipdir".toList, "hit.txt".toList], "bar".toList, 1, 0⟩])) :=
  ⟨rfl, rfl, by decide, by decide,
    filteredDir_stillTraversed (litRegex "bar".toList) (litRegex "hit".toList) filterParams
      ⟨FSNode.dir "skipdir".toList (.cons (.file "hit.txt".toList ["bar".toList]) .nil),
        ["skipdir".toList]⟩ [] 1 counters0 [] rfl rfl (by decide) (by decide)⟩

/-! ### Column accounting (claim C5) -/

theorem dropWhile_append_all (p : Char → Bool) :
    ∀ (xs ys : Str), (∀ x ∈ xs, p x = true) → (xs ++ ys).dropWhile p = ys.dropWhile p := by
  intro xs ys h
  induction xs with
  | nil => rfl
  | cons a xs ih =>
    have ha : p a = true := h a (by simp)
    rw [List.cons_append, List.dropWhile_cons, if_pos ha]
    exact ih (fun x hx => h x (by simp [hx]))

theorem dropWhile_append_hasFalse (p : Char → Bool) :
    ∀ (xs ys : Str), (∃ x ∈ xs, p x = false) →
      (xs ++ ys).dropWhile p = xs.dropWhile p ++ ys := by
  intro xs ys h
  induction xs with
  | nil => obtain ⟨x, hx, _⟩ := h; simp at hx
  | cons a xs ih =>
    by_cases ha : p a = true
    · rw [List.cons_append, List.dropWhile_cons, if_pos ha, List.dropWhile_cons, if_pos ha]
      apply ih
      obtain ⟨x, hx, hpx⟩ := h
      rcases List.mem_cons.mp hx with hxa | hx2
      · rw [hxa] at hpx; rw [hpx] at ha; exact absurd ha (by simp)
      · exact ⟨x, hx2, hpx⟩
    · rw [List.cons_append, List.dropWhile_cons, if_neg ha, List.dropWhile_cons, if_neg ha,
        List.cons_append]

theorem takeWhile_append_all (p : Char → Bool) :
    ∀ (xs ys : Str), (∀ x ∈ xs, p x = true) →
      (xs ++ ys).takeWhile p = xs ++ ys.takeWhile p := by
  intro xs ys h
  induction xs with
  | nil => rfl
  | cons a xs ih =>
    have ha : p a = true := h a (by simp)
    rw [List.cons_append, List.takeWhile_cons, if_pos ha, ih (fun x hx => h x (by simp [hx])),
      List.cons_append]

theorem takeWhile_append_hasFalse (p : Char → Bool) :
    ∀ (xs ys : Str), (∃ x ∈ xs, p x = false) →
      (xs ++ ys).takeWhile p = xs.takeWhile p := by
  intro xs ys h
  induction xs with
  | nil => obtain ⟨x, hx, _⟩ := h; simp at hx
  | cons a xs ih =>
    by_cases ha : p a = true
    · rw [List.cons_append, List.takeWhile_cons, if_pos ha, List.takeWhile_cons, if_pos ha]
      congr 1
      apply ih
      obtain ⟨x, hx, hpx⟩ := h
      rcases List.mem_cons.mp hx with hxa | hx2
      · rw [hxa] at hpx; rw [hpx] at ha; exact absurd ha (by simp)
      · exact ⟨x, hx2, hpx⟩
    · rw [List.cons_append, List.takeWhile_cons, if_neg ha, List.takeWhile_cons, if_neg ha]

/-- Appending trailing whitespace to a line that has a non-whitespace
character does not change its trimmed form. -/
theorem trimSpace_append_ws (l w : Str) (hw : ∀ ch ∈ w, isSpaceChar ch = true)
    (hl : ∃ ch ∈ l, isSpaceChar ch = false) :
    trimSpace (l ++ w) = trimSpace l := by
  unfold trimSpace
  rw [dropWhile_append_hasFalse isSpaceChar l w hl, List.reverse_append,
    dropWhile_append_all isSpaceChar w.reverse _
      (fun x hx => hw x (List.mem_reverse.mp hx))]

/-- Appending trailing whitespace to a line that has a non-whitespace
character does not change its leading-whitespace count. -/
theorem leadingSpace_append_ws (l w : Str) (hl : ∃ ch ∈ l, isSpaceChar ch = false) :
    leadingSpace (l ++ w) = leadingSpace l := by
  unfold leadingSpace
  rw [takeWhile_append_hasFalse isSpaceChar l w hl]

/-- Prepending whitespace does not change the trimmed form. -/
theorem trimSpace_ws_append (w l : Str) (hw : ∀ ch ∈ w, isSpaceChar ch = true) :
    trimSpace (w ++ l) = trimSpace l := by
  unfold trimSpace
  rw [dropWhile_append_all isSpaceChar w l hw]

/-- Prepending whitespace adds exactly its length to the leading count. -/
theorem leadingSpace_ws_append (w l : Str) (hw : ∀ ch ∈ w, isSpaceChar ch = true) :
    leadingSpace (w ++ l) = w.length + leadingSpace l := by
  unfold leadingSpace
  rw [takeWhile_append_all isSpaceChar w l hw, List.length_append]

/-- The events the scanner emits for one raw line: one per triple of the
trimmed line, at the scanner's current line number, with column
len(left) + leadingSpace of the raw line. -/
def lineEvents (re : Regex) (path : List Str) (k : Nat) (raw : Str) : List MatchEvent :=
  (splitStringAtAllMatches (trimSpace raw) (re (trimSpace raw))).map (fun t =>
    ⟨path, t.middle, (k : Int), ((t.left.length + leadingSpace raw : Nat) : Int)⟩)

/-- The events of a whole file, lines numbered consecutively from k. -/
def contentEvents (re : Regex) (path : List Str) : List Str → Nat → List MatchEvent
  | [], _ => []
  | raw :: rest, k => lineEvents re path k raw ++ contentEvents re path rest (k+1)

theorem scanLines_events (re : Regex) (path : List Str) :
    ∀ lines k c evs, (∀ l ∈ lines, containsNul (trimSpace l) = false) →
      (scanLines re false path lines k c evs).2 = evs ++ contentEvents re path lines k := by
  intro lines
  induction lines with
  | nil => intro k c evs _; simp [scanLines, contentEvents]
  | cons raw rest ih =>
    intro k c evs hpre
    have hraw := hpre raw (by simp)
    simp only [scanLines, hraw, Bool.not_false, Bool.true_and, if_false, Bool.false_eq_true]
    rw [ih (k+1) _ _ (fun l hl => hpre l (by simp [hl]))]
    simp [contentEvents, lineEvents, List.append_assoc]

/-- C5 corrected: for every content-scanned line the emitted events are
exactly one per match triple of the trimmed line, with reported column
len(left) + leadingSpace of the raw untrimmed line and with 1-based line
numbers incrementing once per line regardless of match count (the
contentEvents characterization); the column is invariant to trailing
whitespace provided the line contains at least one non-whitespace character;
and prepending leading whitespace shifts every column by exactly the number
of prepended whitespace characters. -/
theorem column_accounting (re : Regex) (path : List Str) (lines : List Str) (k : Nat)
    (c : Counters) (evs : List MatchEvent) (l w : Str)
    (hlines : ∀ x ∈ lines, containsNul (trimSpace x) = false)
    (hw : ∀ ch ∈ w, isSpaceChar ch = true)
    (hl : ∃ ch ∈ l, isSpaceChar ch = false) :
    (scanLines re false path lines k c evs).2 = evs ++ contentEvents re path lines k ∧
    lineEvents re path k (l ++ w) = lineEvents re path k l ∧
    lineEvents re path k (w ++ l) =
      (lineEvents re path k l).map (fun e => { e with column := e.column + w.length }) := by
  refine ⟨scanLines_events re path lines k c evs hlines, ?_, ?_⟩
  · unfold lineEvents
    simp only [trimSpace_append_ws l w hw hl, leadingSpace_append_ws l w hl]
  · unfold lineEvents
    simp only [trimSpace_ws_append w l hw, leadingSpace_ws_append w l hw, List.map_map]
    congr 1
    funext t
    simp only [Function.comp_apply, MatchEvent.mk.injEq, true_and]
    omega

/-- The unconditional trailing-whitespace invariance asserted by the claim is
false on the code: with the empty pattern (which the regex engine compiles
and which matches the empty string), the empty line yields its match at
column 0, while the same line with one trailing space, scanned identically,
yields it at column 1. -/
theorem column_trailing_counterexample :
    (scanLines (litRegex []) false [] [([] : Str)] 1 counters0 []).2 =
      [⟨[], [], 1, 0⟩] ∧
    (scanLines (litRegex []) false [] [[Char.ofNat 32]] 1 counters0 []).2 =
      [⟨[], [], 1, 1⟩] :=
  ⟨rfl, rfl⟩

/-- Witness for the column laws at a concrete line with a real character. -/
theorem column_accounting_witness :
    (∀ x ∈ ["ab".toList], containsNul (trimSpace x) = false) ∧
    (∀ ch ∈ [Char.ofNat 32], isSpaceChar ch = true) ∧
    (∃ ch ∈ "ab".toList, isSpaceChar ch = false) ∧
    ((scanLines (litRegex "b".toList) false [] ["ab".toList] 1 counters0 []).2 =
        [] ++ contentEvents (litRegex "b".toList) [] ["ab".toList] 1 ∧
      lineEvents (litRegex "b".toList) [] 1 ("ab".toList ++ [Char.ofNat 32]) =
        lineEvents (litRegex "b".toList) [] 1 "ab".toList ∧
      lineEvents (litRegex "b".toList) [] 1 ([Char.ofNat 32] ++ "ab".toList) =
        (lineEvents (litRegex "b".toList) [] 1 "ab".toList).map
          (fun e => { e with column := e.column + [Char.ofNat 32].length })) :=
  ⟨by decide, by decide, by decide,
    column_accounting (litRegex "b".toList) [] ["ab".toList] 1 counters0 []
      "ab".toList [Char.ofNat 32] (by decide) (by decide) (by decide)⟩

/-! ### Recursive discovery is exactly-once BFS (claim C6)

Entry identity is the path.  A real directory cannot hold two children with
the same name; wellNamed states that for every directory of the tree. -/

def distinctNames : List Str → Bool
  | [] => true
  | n :: rest => !(rest.contains n) && distinctNames rest

mutual
def wellNamed : FSNode → Bool
  | .file _ _ => true
  | .dir _ cs => distinctNames ((FSList.toList cs).map nodeName) && wellNamedList cs
def wellNamedList : FSList → Bool
  | .nil => true
  | .cons c cs => wellNamed c && wellNamedList cs
end

theorem childNamed_of_mem (cs : List FSNode) (c : FSNode) (hm : c ∈ cs)
    (hd : distinctNames (cs.map nodeName) = true) :
    childNamed cs (nodeName c) = some c := by
  induction cs with
  | nil => simp at hm
  | cons a rest ih =>
    simp only [List.map_cons, distinctNames, Bool.and_eq_true, Bool.not_eq_true'] at hd
    obtain ⟨hnc, hdr⟩ := hd
    rcases List.mem_cons.mp hm with hca | hm2
    · subst hca
      simp [childNamed, List.find?]
    · have hnotmem : nodeName a ∉ rest.map nodeName := by simpa using hnc
      have hne : ¬ (nodeName a == nodeName c) = true := by
        intro he
        have he2 : nodeName a = nodeName c := by simpa using he
        apply hnotmem
        rw [he2]
        exact List.mem_map_of_mem nodeName hm2
      have hfind : List.find? (fun x => nodeName x == nodeName c) (a :: rest) =
          List.find? (fun x => nodeName x == nodeName c) rest :=
        List.find?_cons_of_neg rest hne
      unfold childNamed
      rw [hfind]
      exact ih hm2 hdr

theorem childNamed_mem (cs : List FSNode) (n : Str) (c : FSNode)
    (h : childNamed cs n = some c) : c ∈ cs ∧ nodeName c = n := by
  unfold childNamed at h
  have h1 := List.find?_some h
  have h2 := List.mem_of_find?_eq_some h
  exact ⟨h2, by simpa using h1⟩

theorem wellNamedList_mem :
    ∀ (cs : FSList) (c : FSNode), c ∈ FSList.toList cs →
      wellNamedList cs = true → wellNamed c = true
  | .nil, c, hm, _ => by simp [FSList.toList] at hm
  | .cons a rest, c, hm, hw => by
    simp only [FSList.toList, List.mem_cons] at hm
    simp only [wellNamedList, Bool.and_eq_true] at hw
    rcases hm with hca | hm2
    · rw [hca]; exact hw.1
    · exact wellNamedList_mem rest c hm2 hw.2

/-- Path resolution composes over concatenation. -/
theorem resolvePath_append (t : FSNode) :
    ∀ (p q : List Str), resolvePath t (p ++ q) =
      (resolvePath t p).bind (fun n => resolvePath n q) := by
  intro p
  induction p generalizing t with
  | nil => intro q; rfl
  | cons n rest ih =>
    intro q
    cases t with
    | file nm ls => rfl
    | dir nm cs =>
      simp only [List.cons_append, resolvePath]
      cases hc : childNamed (FSList.toList cs) n with
      | none => rfl
      | some c => exact ih c q

/-- Every node reachable from a well-named tree is well-named. -/
theorem wellNamed_resolve (t : FSNode) :
    ∀ (p : List Str) (n : FSNode), wellNamed t = true →
      resolvePath t p = some n → wellNamed n = true := by
  intro p
  induction p generalizing t with
  | nil =>
    intro n hw h
    simp only [resolvePath, Option.some.injEq] at h
    rw [← h]; exact hw
  | cons x rest ih =>
    intro n hw h
    cases t with
    | file nm ls => simp [resolvePath] at h
    | dir nm cs =>
      simp only [resolvePath] at h
      cases hc : childNamed (FSList.toList cs) x with
      | none => rw [hc] at h; simp at h
      | some c =>
        rw [hc] at h
        have hcm := childNamed_mem _ _ _ hc
        have hw2 : wellNamedList cs = true := by
          simp only [wellNamed, Bool.and_eq_true] at hw
          exact hw.2
        exact ih c n (wellNamedList_mem cs c hcm.1 hw2) h

/-- A discovered child's path stats back to the child itself. -/
theorem resolvePath_child (fs : FSNode) (p : List Str) (nm : Str) (cs : FSList)
    (hp : resolvePath fs p = some (.dir nm cs)) (c : FSNode) (hc : c ∈ FSList.toList cs)
    (hd : distinctNames ((FSList.toList cs).map nodeName) = true) :
    resolvePath fs (p ++ [nodeName c]) = some c := by
  rw [resolvePath_append fs p [nodeName c], hp]
  show resolvePath (FSNode.dir nm cs) [nodeName c] = some c
  simp only [resolvePath]
  rw [childNamed_of_mem _ c hc hd]

/-- The entries one directory root expands to. -/
def childEntriesAt (p : List Str) (cs : FSList) : List FileInfoWithPath :=
  (FSList.toList cs).map (fun c => ⟨c, p ++ [nodeName c]⟩)

/-- On a frontier of directory roots that all stat, shallow discovery is the
concatenation of the per-root child expansions. -/
theorem discoverFilesShallow_dirs (fs : FSNode) :
    ∀ (P : List (List Str)),
      (∀ p ∈ P, ∃ nm cs, resolvePath fs p = some (FSNode.dir nm cs)) →
      discoverFilesShallow fs P = P.flatMap (fun p =>
        match resolvePath fs p with
        | some (FSNode.dir _ cs) => childEntriesAt p cs
        | _ => []) := by
  intro P
  induction P with
  | nil => intro _; rfl
  | cons p rest ih =>
    intro h
    obtain ⟨nm, cs, hp⟩ := h p (by simp)
    simp only [discoverFilesShallow, hp, List.flatMap_cons]
    rw [ih (fun q hq => h q (by simp [hq]))]
    rfl

theorem mem_shallow_dirs (fs : FSNode) (P : List (List Str))
    (h : ∀ p ∈ P, ∃ nm cs, resolvePath fs p = some (FSNode.dir nm cs))
    (e : FileInfoWithPath) :
    e ∈ discoverFilesShallow fs P ↔
      ∃ p ∈ P, ∃ nm cs, resolvePath fs p = some (FSNode.dir nm cs) ∧
        e.info ∈ FSList.toList cs ∧ e.path = p ++ [nodeName e.info] := by
  obtain ⟨i, pa⟩ := e
  rw [discoverFilesShallow_dirs fs P h, List.mem_flatMap]
  constructor
  · rintro ⟨p, hpP, hpe⟩
    obtain ⟨nm, cs, hp⟩ := h p hpP
    rw [hp] at hpe
    simp only [childEntriesAt, List.mem_map] at hpe
    obtain ⟨c, hc, hce⟩ := hpe
    cases hce
    exact ⟨p, hpP, nm, cs, hp, hc, rfl⟩
  · rintro ⟨p, hpP, nm, cs, hp, hci, hpath⟩
    refine ⟨p, hpP, ?_⟩
    rw [hp]
    simp only [childEntriesAt, List.mem_map]
    exact ⟨i, hci, by rw [← hpath]⟩

/-- Every entry emitted by shallow discovery over directory roots stats back
to its own node. -/
theorem shallow_resolve (fs : FSNode) (hwf : wellNamed fs = true) (P : List (List Str))
    (h : ∀ p ∈ P, ∃ nm cs, resolvePath fs p = some (FSNode.dir nm cs)) :
    ∀ e ∈ discoverFilesShallow fs P, resolvePath fs e.path = some e.info := by
  intro e he
  obtain ⟨p, hpP, nm, cs, hp, hci, hpath⟩ := (mem_shallow_dirs fs P h e).mp he
  have hwn : wellNamed (FSNode.dir nm cs) = true := wellNamed_resolve fs p _ hwf hp
  have hd : distinctNames ((FSList.toList cs).map nodeName) = true := by
    simp only [wellNamed, Bool.and_eq_true] at hwn
    exact hwn.1
  rw [hpath]
  exact resolvePath_child fs p nm cs hp e.info hci hd

theorem distinctNames_nodup : ∀ (l : List Str), distinctNames l = true → l.Nodup := by
  intro l
  induction l with
  | nil => intro _; exact List.nodup_nil
  | cons n rest ih =>
    intro h
    simp only [distinctNames, Bool.and_eq_true, Bool.not_eq_true'] at h
    refine List.nodup_cons.mpr ⟨?_, ih h.2⟩
    simpa using h.1

/-- A Nat sum over a sublist is at most the sum over the list. -/
theorem sum_le_of_sublist : ∀ {l1 l2 : List Nat}, l1.Sublist l2 → l1.sum ≤ l2.sum := by
  intro l1 l2 h
  induction h with
  | slnil => exact Nat.le_refl 0
  | cons a _ ih => simpa using Nat.le_trans ih (Nat.le_add_left _ _)
  | cons₂ a _ ih => simpa using ih

/-- The stat-weight of a frontier of roots. -/
def frontierSize (fs : FSNode) (P : List (List Str)) : Nat :=
  (P.map (fun p => match resolvePath fs p with
    | some n => nodeSize n
    | none => 0)).sum

theorem frontierSize_of_entries (fs : FSNode) :
    ∀ (l : List FileInfoWithPath),
      (∀ e ∈ l, resolvePath fs e.path = some e.info) →
      frontierSize fs (l.map FileInfoWithPath.path) =
        (l.map (fun e => nodeSize e.info)).sum := by
  intro l
  induction l with
  | nil => intro _; rfl
  | cons e rest ih =>
    intro h
    simp only [frontierSize, List.map_cons, List.map_map, List.sum_cons] at ih ⊢
    rw [h e (by simp)]
    rw [← ih (fun x hx => h x (by simp [hx]))]

/-- The node weight of one shallow level, measured against its frontier: the
level loses exactly one unit per root. -/
theorem shallow_size (fs : FSNode) :
    ∀ (P : List (List Str)),
      (∀ p ∈ P, ∃ nm cs, resolvePath fs p = some (FSNode.dir nm cs)) →
      ((discoverFilesShallow fs P).map (fun e => nodeSize e.info)).sum + P.length =
        frontierSize fs P := by
  intro P
  induction P with
  | nil => intro _; rfl
  | cons p rest ih =>
    intro h
    obtain ⟨nm, cs, hp⟩ := h p (by simp)
    simp only [discoverFilesShallow, hp, List.map_append, List.sum_append, frontierSize,
      List.map_cons, List.sum_cons, List.length_cons]
    have hchild : (List.map (fun e => nodeSize e.info)
        (List.map (fun c => FileInfoWithPath.mk c (p ++ [nodeName c])) (FSList.toList cs))).sum
        = nodeSizeList cs := by
      rw [List.map_map]
      have hfun : ((fun e => nodeSize e.info) ∘
          (fun c => FileInfoWithPath.mk c (p ++ [nodeName c]))) = nodeSize :=
        funext fun c => rfl
      rw [hfun, nodeSizeList_eq]
    have hrest := ih (fun q hq => h q (by simp [hq]))
    simp only [frontierSize] at hrest
    rw [hchild]
    rw [show nodeSize (FSNode.dir nm cs) = 1 + nodeSizeList cs from rfl]
    omega

/-- Paths emitted by one shallow level over distinct same-depth directory
roots are pairwise distinct. -/
theorem shallow_paths_nodup (fs : FSNode) (hwf : wellNamed fs = true) :
    ∀ (P : List (List Str)) (L : Nat),
      (∀ p ∈ P, p.length = L ∧ ∃ nm cs, resolvePath fs p = some (FSNode.dir nm cs)) →
      P.Nodup →
      ((discoverFilesShallow fs P).map FileInfoWithPath.path).Nodup := by
  intro P
  induction P with
  | nil => intro L h hn; simp [discoverFilesShallow]
  | cons p rest ih =>
    intro L h hn
    obtain ⟨hlen, nm, cs, hp⟩ := h p (by simp)
    have hrest : ∀ q ∈ rest, q.length = L ∧
        ∃ nm cs, resolvePath fs q = some (FSNode.dir nm cs) :=
      fun q hq => h q (by simp [hq])
    have hnr : rest.Nodup := (List.nodup_cons.mp hn).2
    have hpnr : p ∉ rest := (List.nodup_cons.mp hn).1
    simp only [discoverFilesShallow, hp, List.map_append]
    rw [List.nodup_append]
    refine ⟨?_, ih L hrest hnr, ?_⟩
    · rw [List.map_map]
      have hfun : (FileInfoWithPath.path ∘ fun c => FileInfoWithPath.mk c (p ++ [nodeName c])) =
          ((fun n => p ++ [n]) ∘ nodeName) := funext fun c => rfl
      rw [hfun, ← List.map_map]
      apply List.Nodup.map
      · intro a b hab
        simpa using List.append_cancel_left hab
      · have hwn : wellNamed (FSNode.dir nm cs) = true := wellNamed_resolve fs p _ hwf hp
        simp only [wellNamed, Bool.and_eq_true] at hwn
        exact distinctNames_nodup _ hwn.1
    · intro x hx1 hx2
      rw [List.map_map] at hx1
      simp only [List.mem_map, Function.comp] at hx1
      obtain ⟨c, hc, hxeq⟩ := hx1
      rw [List.mem_map] at hx2
      obtain ⟨e, he, hxe⟩ := hx2
      obtain ⟨p2, hp2r, nm2, cs2, hp2, hci2, hpath2⟩ :=
        (mem_shallow_dirs fs rest (fun q hq => (hrest q hq).2) e).mp he
      have hx' : p ++ [nodeName c] = p2 ++ [nodeName e.info] := by
        rw [hxeq, ← hxe, hpath2]
      have hlen2 : p2.length = L := (hrest p2 hp2r).1
      have hp2eq : p = p2 := (List.append_inj hx' (by rw [hlen, hlen2])).1
      rw [hp2eq] at hpnr
      exact hpnr hp2r

theorem pairwise_le_of_const (v : Nat) :
    ∀ (l : List Nat), (∀ x ∈ l, x = v) → l.Pairwise (fun a b => a ≤ b) := by
  intro l
  induction l with
  | nil => intro _; exact List.Pairwise.nil
  | cons a rest ih =>
    intro h
    refine List.Pairwise.cons ?_ (ih fun x hx => h x (by simp [hx]))
    intro b hb
    rw [h a (by simp), h b (by simp [hb])]

/-- The breadth-first loop of discoverFilesRecursive, over any frontier of
distinct same-depth directory roots: every emitted entry stats to its node
and lies strictly below the frontier depth; emitted paths are distinct; the
emitted paths are exactly the resolving strict extensions of the frontier
roots; and emitted depths are nondecreasing (level N before level N+1). -/
theorem discoverRec_frontier (fs : FSNode) (hwf : wellNamed fs = true) :
    ∀ (fuel : Nat) (P : List (List Str)) (L : Nat),
      (∀ p ∈ P, p.length = L ∧ ∃ nm cs, resolvePath fs p = some (FSNode.dir nm cs)) →
      P.Nodup →
      frontierSize fs P < fuel →
      (∀ e ∈ discoverFilesRecursive fs fuel P,
        resolvePath fs e.path = some e.info ∧ L < e.path.length) ∧
      ((discoverFilesRecursive fs fuel P).map FileInfoWithPath.path).Nodup ∧
      (∀ q : List Str, q ∈ (discoverFilesRecursive fs fuel P).map FileInfoWithPath.path ↔
        ((∃ p ∈ P, p <+: q ∧ p ≠ q) ∧ (resolvePath fs q).isSome = true)) ∧
      List.Pairwise (fun a b => a ≤ b)
        ((discoverFilesRecursive fs fuel P).map (fun e => e.path.length)) := by
  intro fuel
  induction fuel with
  | zero => intro P L h hn hsz; exact absurd hsz (Nat.not_lt_zero _)
  | succ fuel ih =>
    intro P L h hn hsz
    cases P with
    | nil => simp [discoverFilesRecursive]
    | cons p0 P' =>
      have hdirs : ∀ p ∈ p0 :: P', ∃ nm cs, resolvePath fs p = some (FSNode.dir nm cs) :=
        fun p hp => (h p hp).2
      have hlen : ∀ p ∈ p0 :: P', p.length = L := fun p hp => (h p hp).1
      have hres : ∀ e ∈ discoverFilesShallow fs (p0 :: P'),
          resolvePath fs e.path = some e.info :=
        shallow_resolve fs hwf _ hdirs
      have hlvlen : ∀ e ∈ discoverFilesShallow fs (p0 :: P'), e.path.length = L + 1 := by
        intro e he
        obtain ⟨p, hpP, nm, cs, hp, hci, hpath⟩ := (mem_shallow_dirs fs _ hdirs e).mp he
        rw [hpath, List.length_append, hlen p hpP]
        rfl
      have hlvnodup := shallow_paths_nodup fs hwf (p0 :: P') L h hn
      have hunfold : discoverFilesRecursive fs (fuel+1) (p0 :: P') =
          discoverFilesShallow fs (p0 :: P') ++
            discoverFilesRecursive fs fuel
              (((discoverFilesShallow fs (p0 :: P')).filter
                  (fun e => isDirNode e.info)).map FileInfoWithPath.path) := by
        simp [discoverFilesRecursive]
      have hnextmem : ∀ q ∈ ((discoverFilesShallow fs (p0 :: P')).filter
          (fun e => isDirNode e.info)).map FileInfoWithPath.path,
          ∃ e ∈ discoverFilesShallow fs (p0 :: P'), isDirNode e.info = true ∧ e.path = q := by
        intro q hq
        rw [List.mem_map] at hq
        obtain ⟨e, he, hq⟩ := hq
        rw [List.mem_filter] at he
        exact ⟨e, he.1, he.2, hq⟩
      have hnexthyp : ∀ q ∈ ((discoverFilesShallow fs (p0 :: P')).filter
          (fun e => isDirNode e.info)).map FileInfoWithPath.path,
          q.length = L + 1 ∧ ∃ nm cs, resolvePath fs q = some (FSNode.dir nm cs) := by
        intro q hq
        obtain ⟨e, he, hdir, hq⟩ := hnextmem q hq
        refine ⟨by rw [← hq]; exact hlvlen e he, ?_⟩
        cases hei : e.info with
        | file nm ls => rw [hei] at hdir; exact absurd hdir (by simp [isDirNode])
        | dir nm cs =>
          refine ⟨nm, cs, ?_⟩
          rw [← hq, hres e he, hei]
      have hnextnodup : (((discoverFilesShallow fs (p0 :: P')).filter
          (fun e => isDirNode e.info)).map FileInfoWithPath.path).Nodup :=
        List.Nodup.sublist
          (List.Sublist.map FileInfoWithPath.path (List.filter_sublist _)) hlvnodup
      have hsznext : frontierSize fs (((discoverFilesShallow fs (p0 :: P')).filter
          (fun e => isDirNode e.info)).map FileInfoWithPath.path) < fuel := by
        have h1 : frontierSize fs (((discoverFilesShallow fs (p0 :: P')).filter
            (fun e => isDirNode e.info)).map FileInfoWithPath.path) =
            (((discoverFilesShallow fs (p0 :: P')).filter
              (fun e => isDirNode e.info)).map (fun e => nodeSize e.info)).sum :=
          frontierSize_of_entries fs _ (fun e he => hres e (List.mem_of_mem_filter he))
        have h2 : (((discoverFilesShallow fs (p0 :: P')).filter
            (fun e => isDirNode e.info)).map (fun e => nodeSize e.info)).sum ≤
            ((discoverFilesShallow fs (p0 :: P')).map (fun e => nodeSize e.info)).sum :=
          sum_le_of_sublist (List.Sublist.map _ (List.filter_sublist _))
        have h3 := shallow_size fs (p0 :: P') hdirs
        rw [List.length_cons] at h3
        omega
      obtain ⟨ih1, ih2, ih3, ih4⟩ := ih (((discoverFilesShallow fs (p0 :: P')).filter
          (fun e => isDirNode e.info)).map FileInfoWithPath.path) (L+1)
        hnexthyp hnextnodup hsznext
      rw [hunfold]
      refine ⟨?_, ?_, ?_, ?_⟩
      · intro e he
        rcases List.mem_append.mp he with h1 | h1
        · exact ⟨hres e h1, by rw [hlvlen e h1]; omega⟩
        · obtain ⟨ha, hb⟩ := ih1 e h1
          exact ⟨ha, by omega⟩
      · rw [List.map_append, List.nodup_append]
        refine ⟨hlvnodup, ih2, ?_⟩
        intro x hx1 hx2
        rw [List.mem_map] at hx1 hx2
        obtain ⟨e1, he1, hxe1⟩ := hx1
        obtain ⟨e2, he2, hxe2⟩ := hx2
        have l1 : x.length = L + 1 := by rw [← hxe1]; exact hlvlen e1 he1
        have l2 : L + 1 < x.length := by rw [← hxe2]; exact (ih1 e2 he2).2
        omega
      · intro q
        rw [List.map_append, List.mem_append]
        constructor
        · rintro (h1 | h1)
          · rw [List.mem_map] at h1
            obtain ⟨e, he, hq⟩ := h1
            obtain ⟨p, hpP, nm, cs, hp, hci, hpath⟩ := (mem_shallow_dirs fs _ hdirs e).mp he
            refine ⟨⟨p, hpP, ?_, ?_⟩, ?_⟩
            · rw [← hq, hpath]; exact ⟨[nodeName e.info], rfl⟩
            · intro hcon
              have hq1 : q.length = L + 1 := by rw [← hq]; exact hlvlen e he
              have hp1 : p.length = L := hlen p hpP
              rw [hcon] at hp1
              omega
            · rw [← hq, hres e he]; rfl
          · obtain ⟨⟨p1, hp1, hpre1, hne1⟩, hq2⟩ := (ih3 q).mp h1
            obtain ⟨e, he, hdir, hpe⟩ := hnextmem p1 hp1
            obtain ⟨p, hpP, nm, cs, hp, hci, hpath⟩ := (mem_shallow_dirs fs _ hdirs e).mp he
            refine ⟨⟨p, hpP, ?_, ?_⟩, hq2⟩
            · have hpp1 : p <+: p1 := by rw [← hpe, hpath]; exact ⟨[nodeName e.info], rfl⟩
              exact hpp1.trans hpre1
            · intro hcon
              have hl1 : p1.length = L + 1 := (hnexthyp p1 hp1).1
              have hlq : p1.length ≤ q.length := hpre1.length_le
              have hpl : p.length = L := hlen p hpP
              rw [hcon] at hpl
              omega
        · rintro ⟨⟨p, hpP, hpre, hne⟩, hqsome⟩
          obtain ⟨r, hr⟩ := hpre
          cases r with
          | nil =>
            rw [List.append_nil] at hr
            exact absurd hr hne
          | cons x tail =>
            obtain ⟨nm, cs, hp⟩ := (h p hpP).2
            have hq1some : ∃ c, resolvePath fs (p ++ [x]) = some c := by
              have hqsplit : resolvePath fs q =
                  (resolvePath fs (p ++ [x])).bind (fun n => resolvePath n tail) := by
                rw [← hr, show p ++ x :: tail = (p ++ [x]) ++ tail from by simp,
                  resolvePath_append]
              cases hc : resolvePath fs (p ++ [x]) with
              | none => rw [hqsplit, hc] at hqsome; simp at hqsome
              | some c => exact ⟨c, rfl⟩
            obtain ⟨c, hc⟩ := hq1some
            have hcmem : c ∈ FSList.toList cs ∧ nodeName c = x := by
              have hstep : resolvePath fs (p ++ [x]) = childNamed (FSList.toList cs) x := by
                rw [resolvePath_append, hp]
                show resolvePath (FSNode.dir nm cs) [x] = _
                simp only [resolvePath]
                cases childNamed (FSList.toList cs) x with
                | none => rfl
                | some c2 => rfl
              rw [hstep] at hc
              exact childNamed_mem _ _ _ hc
            have hemem : (⟨c, p ++ [nodeName c]⟩ : FileInfoWithPath) ∈
                discoverFilesShallow fs (p0 :: P') := by
              rw [mem_shallow_dirs fs _ hdirs]
              exact ⟨p, hpP, nm, cs, hp, hcmem.1, rfl⟩
            cases tail with
            | nil =>
              left
              rw [List.mem_map]
              refine ⟨⟨c, p ++ [nodeName c]⟩, hemem, ?_⟩
              show p ++ [nodeName c] = q
              rw [hcmem.2, ← hr]
            | cons y tail2 =>
              right
              rw [ih3 q]
              have hcdir : isDirNode c = true := by
                cases hcc : c with
                | file nm2 ls2 =>
                  have hqsplit : resolvePath fs q =
                      (resolvePath fs (p ++ [x])).bind
                        (fun n => resolvePath n (y :: tail2)) := by
                    rw [← hr, show p ++ x :: y :: tail2 = (p ++ [x]) ++ (y :: tail2) from
                      by simp, resolvePath_append]
                  rw [hqsplit, hc, hcc] at hqsome
                  simp [resolvePath] at hqsome
                | dir nm2 cs2 => simp [isDirNode]
              refine ⟨⟨p ++ [x], ?_, ⟨y :: tail2, by rw [← hr]; simp⟩, ?_⟩, hqsome⟩
              · rw [List.mem_map]
                refine ⟨⟨c, p ++ [nodeName c]⟩, ?_, by rw [hcmem.2]⟩
                rw [List.mem_filter]
                exact ⟨hemem, hcdir⟩
              · intro hcon
                have : q.length = p.length + 1 := by rw [← hcon, List.length_append]; rfl
                have : q.length = p.length + (x :: y :: tail2).length := by
                  rw [← hr, List.length_append]
                simp at this
                omega
      · rw [List.map_append, List.pairwise_append]
        refine ⟨?_, ih4, ?_⟩
        · apply pairwise_le_of_const (L + 1)
          intro v hv
          rw [List.mem_map] at hv
          obtain ⟨e, he, hvq⟩ := hv
          rw [← hvq]
          exact hlvlen e he
        · intro a ha b hb
          rw [List.mem_map] at ha hb
          obtain ⟨e1, he1, ha1⟩ := ha
          obtain ⟨e2, he2, hb1⟩ := hb
          have l1 : a = L + 1 := by rw [← ha1]; exact hlvlen e1 he1
          have l2 : L + 1 < b := by rw [← hb1]; exact (ih1 e2 he2).2
          omega

/-- C6: recursive discovery over an acyclic well-named directory tree stats
every emitted entry to its own node, emits every descendant file and
directory exactly once (the emitted paths are distinct and are exactly the
non-empty resolving paths of the tree), and emits in strict BFS level
order: the emitted depths are nondecreasing, so for every N all level-N
entries precede all level-(N+1) entries. -/
theorem discoverFilesRecursive_bfs (fs : FSNode) (hwf : wellNamed fs = true)
    (hdir : isDirNode fs = true) :
    (∀ e ∈ discoverFilesRecursive fs (nodeSize fs + 1) [[]],
      resolvePath fs e.path = some e.info) ∧
    ((discoverFilesRecursive fs (nodeSize fs + 1) [[]]).map FileInfoWithPath.path).Nodup ∧
    (∀ q : List Str,
      q ∈ (discoverFilesRecursive fs (nodeSize fs + 1) [[]]).map FileInfoWithPath.path ↔
        (q ≠ [] ∧ (resolvePath fs q).isSome = true)) ∧
    List.Pairwise (fun a b => a ≤ b)
      ((discoverFilesRecursive fs (nodeSize fs + 1) [[]]).map (fun e => e.path.length)) := by
  have hroot : ∀ p ∈ ([[]] : List (List Str)), p.length = 0 ∧
      ∃ nm cs, resolvePath fs p = some (FSNode.dir nm cs) := by
    intro p hp
    simp only [List.mem_singleton] at hp
    subst hp
    refine ⟨rfl, ?_⟩
    cases hf : fs with
    | file nm ls => rw [hf] at hdir; exact absurd hdir (by simp [isDirNode])
    | dir nm cs => exact ⟨nm, cs, rfl⟩
  have hsz : frontierSize fs [[]] < nodeSize fs + 1 := by
    simp [frontierSize, resolvePath]
  obtain ⟨h1, h2, h3, h4⟩ := discoverRec_frontier fs hwf (nodeSize fs + 1) [[]] 0 hroot
    (by simp) hsz
  refine ⟨fun e he => (h1 e he).1, h2, ?_, h4⟩
  intro q
  rw [h3 q]
  constructor
  · rintro ⟨⟨p, hp, hpre, hne⟩, hsome⟩
    simp only [List.mem_singleton] at hp
    subst hp
    exact ⟨Ne.symm hne, hsome⟩
  · rintro ⟨hqne, hsome⟩
    exact ⟨⟨[], by simp, List.nil_prefix, Ne.symm hqne⟩, hsome⟩

def bfsFS : FSNode :=
  .dir [] (.cons (.dir "d".toList (.cons (.file "f".toList []) .nil))
    (.cons (.file "g".toList []) .nil))

/-- Witness for the BFS discovery laws on a small two-level tree. -/
theorem discoverFilesRecursive_bfs_witness :
    wellNamed bfsFS = true ∧ isDirNode bfsFS = true ∧
    ((∀ e ∈ discoverFilesRecursive bfsFS (nodeSize bfsFS + 1) [[]],
        resolvePath bfsFS e.path = some e.info) ∧
      ((discoverFilesRecursive bfsFS (nodeSize bfsFS + 1) [[]]).map
          FileInfoWithPath.path).Nodup ∧
      (∀ q : List Str,
        q ∈ (discoverFilesRecursive bfsFS (nodeSize bfsFS + 1) [[]]).map
            FileInfoWithPath.path ↔
          (q ≠ [] ∧ (resolvePath bfsFS q).isSome = true)) ∧
      List.Pairwise (fun a b => a ≤ b)
        ((discoverFilesRecursive bfsFS (nodeSize bfsFS + 1) [[]]).map
          (fun e => e.path.length))) :=
  ⟨by decide, rfl, discoverFilesRecursive_bfs bfsFS (by decide) rfl⟩
